import Mathlib

/-!
# gotorrentinfo: byte-size formatting, text styling, the generic value renderer and the summary view

A shallow embedding of `gotorrentinfo.go`.

* Go `string` values are Lean `String`s, `len` is `String.utf8ByteSize`, and the
  byte-wise comparison of Go strings is the lexicographic comparison of the
  code points (the two orders agree on UTF-8 encoded text).
* Go `int`/`uint64`/`int64` values are `Nat`/`Int`; the only place where the
  machine width matters is the conversion `float64(size)`, which is modelled
  with its rounding to 53 significant bits.
* A run-time panic (index out of range) is `none`.
* Printed output is the list of lines written, one per `fmt.Println`.
-/

namespace Gotorrentinfo

/-! ## float64, as far as `formatBytes` uses it -/

/-- The non-negative binary64 value `num / 2 ^ shift`. Every value `formatBytes`
computes is of this form: the conversion of a `uint64` is an integer, and a
division by `1024` of a value above `1024` only lowers the exponent, so it is
exact. -/
structure Float64 where
  num : Nat
  shift : Nat
  deriving DecidableEq, Repr

/-- Number of low bits that do not fit into a 53-bit significand: the least `k`
with `n < 2 ^ (53 + k)`, searched for at most `fuel` steps (11 steps are enough
for a `uint64`). -/
def excessBits : Nat → Nat → Nat
  | 0, _ => 0
  | fuel + 1, n => if n < 2 ^ 53 then 0 else excessBits fuel (n / 2) + 1

/-- Rounding of a natural number to the nearest integer that has at most 53
significant bits, ties to the even significand (IEEE 754 round-to-nearest-even),
for arguments below `2 ^ 64`. -/
def roundTo53 (n : Nat) : Nat :=
  let k := excessBits 11 n
  let q := n / 2 ^ k
  let r := n % 2 ^ k
  if 2 ^ k < 2 * r ∨ (2 * r = 2 ^ k ∧ q % 2 = 1) then (q + 1) * 2 ^ k else q * 2 ^ k

/-- The Go conversion `float64(size)` of a `uint64`. -/
def Float64.ofUint64 (size : Nat) : Float64 := ⟨roundTo53 size, 0⟩

/-- The Go statement `bytes /= 1024`. -/
def Float64.div1024 (x : Float64) : Float64 := ⟨x.num, x.shift + 10⟩

/-- The Go comparison `bytes > 1024`. -/
def Float64.gt1024 (x : Float64) : Bool := decide (1024 * 2 ^ x.shift < x.num)

/-- The value of `x` in hundredths, rounded to the nearest integer, ties to even:
the digits that the verb `%0.2f` prints (Go formats the exact decimal expansion
of the binary value and rounds it half-to-even). -/
def Float64.hundredths (x : Float64) : Nat :=
  let q := x.num * 100 / 2 ^ x.shift
  let r := x.num * 100 % 2 ^ x.shift
  if 2 ^ x.shift < 2 * r ∨ (2 * r = 2 ^ x.shift ∧ q % 2 = 1) then q + 1 else q

/-- Text of a number of hundredths with two decimals: `c / 100`, a point, and the
two digits of `c % 100`. -/
def fixed2 (c : Nat) : String :=
  toString (c / 100) ++ "." ++ toString (c % 100 / 10) ++ toString (c % 10)

/-- The Go call `fmt.Sprintf("%0.2f", x)`. -/
def Float64.format2 (x : Float64) : String := fixed2 x.hundredths

/-! ## formatBytes -/

/-- The slice `suffixArray` of `formatBytes`. -/
def suffixArray : List Char := ['K', 'M', 'G', 'T', 'P', 'E', 'Z', 'Y']

/-- The Go index expression `a[k]` for a signed index: a panic (`none`) when `k`
is negative or not below the length. -/
def index (a : List Char) (k : Int) : Option Char :=
  if k < 0 then none else a[k.toNat]?

/-- The loop `for ; bytes > 1024 && i < suffixCount; i++ { bytes /= 1024 }` of
`formatBytes`, run for at most `fuel` iterations; it returns the final `bytes`
and `i`. -/
def formatBytesLoop (suffixCount : Int) : Nat → Float64 → Int → Float64 × Int
  | 0, bytes, i => (bytes, i)
  | fuel + 1, bytes, i =>
    if bytes.gt1024 && decide (i < suffixCount) then
      formatBytesLoop suffixCount fuel bytes.div1024 (i + 1)
    else (bytes, i)

/-- The Go function `formatBytes`; `none` is the run-time panic of the index
expression `suffixArray[i-1]`. The loop gets `suffixCount` iterations of fuel,
which it cannot exceed because `i` counts them (`formatBytesLoop_fuel`). -/
def formatBytes (size : Nat) : Option String :=
  if size < 1024 then some (toString size ++ " B")
  else
    let suffixCount : Int := suffixArray.length
    let r := formatBytesLoop suffixCount suffixCount.toNat (Float64.ofUint64 size) 0
    match index suffixArray (r.2 - 1) with
    | none => none
    | some c => some (r.1.format2 ++ " " ++ String.singleton c ++ "B")

/-! ## textFormatter -/

/-- The Go struct `textFormatter`. The field `mapping` lists the entries of the Go
map in the order in which `range t.mapping` visits them. The code ranges over the
map anew in every call of `format`, and Go does not fix the order, so two calls
may see two different orders: a formatter value stands for the order seen by the
calls it is passed to. -/
structure textFormatter where
  none : Nat
  normal : Nat
  bright : Nat
  white : Nat
  green : Nat
  red : Nat
  cyan : Nat
  yellow : Nat
  magenta : Nat
  dull : Nat
  escape : Char
  reset : String
  mapping : List (Nat × String)

/-- The Go method `textFormatter.init`, with the entries of `mapping` in the order
of their insertion. Go leaves the order of a `range` over a map unspecified, so a
statement that depends on it is made for every permutation of this list. -/
def textFormatter.init : textFormatter :=
  { none := 0x000000
    normal := 0x000001
    bright := 0x000002
    white := 0x000004
    green := 0x000008
    red := 0x000010
    cyan := 0x000020
    yellow := 0x000040
    magenta := 0x000080
    dull := 0x000100
    escape := Char.ofNat 0x1b
    reset := "[0m"
    mapping := [(0x000001, "[0m"), (0x000002, "[1m"), (0x000100, "[22m"), (0x000004, "[37m"),
      (0x000008, "[32m"), (0x000020, "[36m"), (0x000040, "[33m"), (0x000010, "[31m"),
      (0x000080, "[35m")] }

/-- The Go method `textFormatter.format`; `noColorFlag` is the value of the global
flag `*noColorFlag`. -/
def textFormatter.format (t : textFormatter) (noColorFlag : Bool) (s : String) (format : Nat) :
    String :=
  if !noColorFlag then
    let codestring := t.mapping.foldl
      (fun codestring p =>
        if p.1 &&& format ≠ 0 then codestring ++ (String.singleton t.escape ++ p.2)
        else codestring) ""
    if codestring ≠ "" then codestring ++ s ++ String.singleton t.escape ++ t.reset else s
  else s

/-! ## The generic value renderer -/

/-- The values the bencode decoder produces: Go `string`, `int64`, `[]interface{}`
and `map[string]interface{}`. A map is the list of its entries in the order in
which a `range` over it visits them; its keys are distinct. -/
inductive Value where
  | str (val : String)
  | int64 (val : Int)
  | list (val : List Value)
  | dict (val : List (String × Value))

/-- The Go call `strings.Repeat(s, count)`. -/
def stringsRepeat (s : String) : Nat → String
  | 0 => ""
  | count + 1 => s ++ stringsRepeat s count

/-- The Go call `list.Sort()` on a `sort.StringSlice`: the strings in increasing
order of Go's `<`. -/
def sortStrings (list : List String) : List String :=
  list.insertionSort (fun a b => a.data ≤ b.data)

mutual
/-- The text that `fmt.Println` writes for one operand (the default format `%v`):
a string as it is, an integer in decimal, a slice as `[e1 e2 ...]` and a map as
`map[k1:v1 k2:v2 ...]` with the keys in increasing order. -/
def fmtSprint : Value → String
  | .str val => val
  | .int64 val => toString val
  | .list val => "[" ++ " ".intercalate (fmtSprintList val) ++ "]"
  | .dict val =>
    "map[" ++ " ".intercalate (((fmtSprintDict val).insertionSort
      (fun a b => a.1.data ≤ b.1.data)).map (fun p => p.1 ++ ":" ++ p.2)) ++ "]"
/-- The default format of every element of a slice. -/
def fmtSprintList : List Value → List String
  | [] => []
  | v :: vs => fmtSprint v :: fmtSprintList vs
/-- The keys of a map with the default format of their values. -/
def fmtSprintDict : List (String × Value) → List (String × String)
  | [] => []
  | (k, v) :: es => (k, fmtSprint v) :: fmtSprintDict es
end

/-- The Go function `printInt`. -/
def printInt (noColorFlag : Bool) (t : textFormatter) (val : Int) (indent : Nat) : List String :=
  [stringsRepeat " " ((indent + 1) * 4) ++ t.format noColorFlag (toString val) t.cyan]

/-- The Go function `printString`. -/
def printString (noColorFlag : Bool) (t : textFormatter) (val key : String) (indent : Nat) :
    List String :=
  if key = "pieces" then
    [stringsRepeat " " ((indent + 1) * 4) ++
      t.format noColorFlag ("[" ++ toString val.utf8ByteSize ++ " UTF-8 Bytes]")
        (t.red ||| t.bright)]
  else
    [stringsRepeat " " ((indent + 1) * 4) ++ val]

mutual
/-- The Go function `printDict`. A missing `dict[key]` is the nil interface, for
which the type switch has no case. The one formatter `t` is passed to every call
of `format` in the rendering, so with styling enabled the rendering is the one in
which every call of `format` sees the same order of the mapping; with styling
disabled the mapping is not read and the rendering is the only one. -/
def printDict (noColorFlag : Bool) (t : textFormatter) (dict : List (String × Value))
    (indent : Nat) : List String :=
  let list := sortStrings (dict.map Prod.fst)
  let format := if indent < 2 then t.bright ||| t.yellow else t.green
  list.flatMap fun key =>
    (stringsRepeat " " (indent * 4) ++ t.format noColorFlag key format) ::
      match h : dict.lookup key with
      | some (.str val) => printString noColorFlag t val key indent
      | some (.list val) => printList noColorFlag t val (indent + 1)
      | some (.dict val) => printDict noColorFlag t val (indent + 1)
      | some (.int64 val) => printInt noColorFlag t val indent
      | none => []
termination_by sizeOf dict
decreasing_by
  all_goals simp_wf
  all_goals
    have hsz : ∀ (d : List (String × Value)) (v : Value),
        d.lookup key = some v → sizeOf v < sizeOf d := by
      intro d
      induction d with
      | nil => intro v hv; simp at hv
      | cons p rest ih =>
        obtain ⟨k, w⟩ := p
        intro v hv
        simp only [List.lookup] at hv
        split at hv
        · cases hv; simp; omega
        · have := ih v hv
          simp; omega
    have := hsz _ _ h
    simp at this
    omega
/-- The Go function `printList`. -/
def printList (noColorFlag : Bool) (t : textFormatter) (list : List Value) (indent : Nat) :
    List String :=
  if h1 : list.length = 1 then
    [stringsRepeat " " (indent * 4) ++ fmtSprint list[0]]
  else
    list.enum.attach.flatMap fun p =>
      (stringsRepeat " " (indent * 4) ++
          t.format noColorFlag (toString p.1.1) (t.bright ||| t.yellow)) ::
        match h : p.1.2 with
        | .str val => printString noColorFlag t val "" indent
        | .list val => printList noColorFlag t val (indent + 1)
        | .dict val => printDict noColorFlag t val (indent + 1)
        | .int64 val => printInt noColorFlag t val indent
termination_by sizeOf list
decreasing_by
  all_goals simp_wf
  all_goals
    have := List.sizeOf_lt_of_mem (List.snd_mem_of_mem_enum p.2)
    rw [h] at this
    simp at this
    omega
end

/-- The type switch in the loop of `printDict`, applied to the value `dict[key]`. -/
def printDictValue (noColorFlag : Bool) (t : textFormatter) (val : Option Value) (key : String)
    (indent : Nat) : List String :=
  match val with
  | some (.str val) => printString noColorFlag t val key indent
  | some (.list val) => printList noColorFlag t val (indent + 1)
  | some (.dict val) => printDict noColorFlag t val (indent + 1)
  | some (.int64 val) => printInt noColorFlag t val indent
  | none => []

/-- The type switch in the loop of `printList`, applied to the element `val`. -/
def printListValue (noColorFlag : Bool) (t : textFormatter) (val : Value) (indent : Nat) :
    List String :=
  match val with
  | .str val => printString noColorFlag t val "" indent
  | .list val => printList noColorFlag t val (indent + 1)
  | .dict val => printDict noColorFlag t val (indent + 1)
  | .int64 val => printInt noColorFlag t val indent

/-- The line `printDict` prints for a key: the indentation and the styled key. -/
def keyLine (noColorFlag : Bool) (t : textFormatter) (key : String) (indent : Nat) : String :=
  stringsRepeat " " (indent * 4) ++
    t.format noColorFlag key (if indent < 2 then t.bright ||| t.yellow else t.green)

/-- The line `printList` prints for an index: the indentation and the styled index. -/
def indexLine (noColorFlag : Bool) (t : textFormatter) (key : Nat) (indent : Nat) : String :=
  stringsRepeat " " (indent * 4) ++ t.format noColorFlag (toString key) (t.bright ||| t.yellow)

/-- The concatenation of one escape sequence, the escape byte followed by the
code, for every entry of `codes`, in the order of the list. -/
def escapeCodes (escape : Char) : List (Nat × String) → String
  | [] => ""
  | p :: ps => (String.singleton escape ++ p.2) ++ escapeCodes escape ps

/-- The tags of `textFormatter.init` other than `normal`, each with its code. -/
def tagCodes : List (Nat × String) :=
  [(textFormatter.init.bright, "[1m"), (textFormatter.init.dull, "[22m"),
    (textFormatter.init.white, "[37m"), (textFormatter.init.green, "[32m"),
    (textFormatter.init.cyan, "[36m"), (textFormatter.init.yellow, "[33m"),
    (textFormatter.init.red, "[31m"), (textFormatter.init.magenta, "[35m")]

/-- The test `name&format != 0` of `textFormatter.format` on an entry of the
mapping: the tag of the entry is present in `format`. -/
def hasTag (format : Nat) (p : Nat × String) : Bool := decide (p.1 &&& format ≠ 0)

/-! ## The summary view and `main` -/

/-- Modelled from the spec: the record `File` of the package `torrentfile`, which is
not under `src/`: the path of a file and its length, a `uint64`. -/
structure File where
  Path : String
  Length : Nat

/-- Modelled from the spec: the record `TorrentFile` of the package `torrentfile`,
which is not under `src/`. `CreationDate` is the text of `CreationDate.String()`,
`Pieces` the hash records of the pieces blob, one list of bytes per record, and
`TotalSize` and `InfoHash` are the results of the methods of these names. -/
structure TorrentFile where
  Name : String
  Comment : String
  AnnounceUrl : String
  CreatedBy : String
  CreationDate : String
  Encoding : String
  Files : List File
  PieceLength : Nat
  Pieces : List (List Nat)
  TotalSize : Nat
  InfoHash : List Nat

/-- Modelled from the spec: the constant `torrentfile.PIECE_SIZE`, the number of
bytes of one hash record. -/
def PIECE_SIZE : Nat := 20

/-- The Go call `fmt.Sprintf("%x", b)` on a sequence of bytes: two lower-case
hexadecimal digits for every byte. -/
def fmtHex : List Nat → String
  | [] => ""
  | b :: bs => String.mk [Nat.digitChar (b / 16), Nat.digitChar (b % 16)] ++ fmtHex bs

/-- The flags and the number of arguments that `main` reads after
`getopt.Parse()`; the flag `nocolors` is the global `noColorFlag`. -/
structure Flags where
  help : Bool
  version : Bool
  files : Bool
  detailed : Bool
  verbose : Bool
  nargs : Nat

/-- What a run of `main` does: whether it calls `getopt.Usage()`, and the lines it
writes to the standard output. -/
structure Run where
  usage : Bool
  stdout : List String
  deriving DecidableEq

/-- The compact field lines of `main` (the block under `if !*detailedFlag`);
`none` when `formatBytes` panics. -/
def summaryFields (noColorFlag : Bool) (t : textFormatter) (tfile : TorrentFile) :
    Option (List String) :=
  let labelformat := t.bright ||| t.yellow
  let indent := stringsRepeat " " 4
  let colWidth := 19
  match formatBytes tfile.TotalSize with
  | none => none
  | some total =>
    some (
      [indent ++ t.format noColorFlag "name" labelformat ++
          stringsRepeat " " (colWidth - (indent ++ "name").utf8ByteSize) ++ tfile.Name,
        indent ++ t.format noColorFlag "comment" labelformat ++
          stringsRepeat " " (colWidth - (indent ++ "comment").utf8ByteSize) ++ tfile.Comment,
        indent ++ t.format noColorFlag "announce url" labelformat ++
          stringsRepeat " " (colWidth - (indent ++ "announce url").utf8ByteSize) ++
          tfile.AnnounceUrl,
        indent ++ t.format noColorFlag "created by" labelformat ++
          stringsRepeat " " (colWidth - (indent ++ "created by").utf8ByteSize) ++
          tfile.CreatedBy,
        indent ++ t.format noColorFlag "created on" labelformat ++
          stringsRepeat " " (colWidth - (indent ++ "created on").utf8ByteSize) ++
          t.format noColorFlag tfile.CreationDate t.magenta] ++
      (if tfile.Encoding ≠ "" then
        [indent ++ t.format noColorFlag "enconding" labelformat ++
          stringsRepeat " " (colWidth - (indent ++ "enconding").utf8ByteSize) ++ tfile.Encoding]
      else []) ++
      [indent ++ t.format noColorFlag "num files" labelformat ++
          stringsRepeat " " (colWidth - (indent ++ "num files").utf8ByteSize) ++
          toString tfile.Files.length,
        indent ++ t.format noColorFlag "total size" labelformat ++
          stringsRepeat " " (colWidth - (indent ++ "total size").utf8ByteSize) ++
          t.format noColorFlag total t.cyan,
        indent ++ t.format noColorFlag "Info Hash" labelformat ++
          stringsRepeat " " (colWidth - (indent ++ "Info Hash").utf8ByteSize) ++
          fmtHex tfile.InfoHash])

/-- The loop `for key, value := range tfile.Files` of `main`, over the files with
their indices; `none` when `formatBytes` panics. -/
def filesLoop (noColorFlag : Bool) (t : textFormatter) :
    List (Nat × File) → Option (List String)
  | [] => some []
  | (key, value) :: rest =>
    let indent := stringsRepeat " " 4
    match formatBytes value.Length with
    | none => none
    | some length =>
      match filesLoop noColorFlag t rest with
      | none => none
      | some out =>
        some (
          [stringsRepeat indent 2 ++ t.format noColorFlag (toString key) (t.bright ||| t.yellow),
            stringsRepeat indent 3 ++ t.format noColorFlag "path" (t.bright ||| t.yellow),
            stringsRepeat indent 4 ++ value.Path,
            stringsRepeat indent 3 ++ t.format noColorFlag "length" (t.bright ||| t.yellow),
            stringsRepeat indent 4 ++ t.format noColorFlag length t.cyan] ++ out)

/-- The file listing of `main` (the block under `if *filesFlag || *detailedFlag`). -/
def fileListing (noColorFlag : Bool) (t : textFormatter) (tfile : TorrentFile) :
    Option (List String) :=
  let indent := stringsRepeat " " 4
  match filesLoop noColorFlag t tfile.Files.enum with
  | none => none
  | some out => some ((indent ++ t.format noColorFlag "files" (t.bright ||| t.yellow)) :: out)

/-- The piece lines of `main` (the block under `if *detailedFlag`). -/
def pieceDetails (noColorFlag : Bool) (t : textFormatter) (tfile : TorrentFile) :
    Option (List String) :=
  match formatBytes tfile.PieceLength with
  | none => none
  | some pieceLength =>
    let pieces := tfile.Pieces.length * PIECE_SIZE
    some
      [t.format noColorFlag "    piece length" (t.bright ||| t.yellow),
        "            " ++ t.format noColorFlag pieceLength t.cyan,
        t.format noColorFlag "    pieces" (t.bright ||| t.yellow),
        t.format noColorFlag ("            [" ++ toString pieces ++ " UTF-8 Bytes]")
          (t.red ||| t.bright)]

/-- The Go function `main`, for a file that opens and decodes: `t` is the formatter
after `t.init()`, `fileName` is `filepath.Base(file.Name())`, `tfile` the result of
`torrentfile.DecodeTorrentFile` and `dict` the result of `bencode.Decode`. The
result is `none` when the run panics in `formatBytes`. -/
def main (noColorFlag : Bool) (t : textFormatter) (flags : Flags) (fileName : String)
    (tfile : TorrentFile) (dict : List (String × Value)) : Option Run :=
  if flags.detailed && flags.files then
    some ⟨true,
      ["gotorrentinfo: error: argument -f/--files: not allowed with argument -d/--detailed"]⟩
  else if flags.verbose && flags.files then
    some ⟨true,
      ["gotorrentinfo: error: argument -f/--files: not allowed with argument -e/--everything"]⟩
  else if flags.version then
    some ⟨false, ["gotorrentinfo v0.1.0"]⟩
  else if flags.help || flags.nargs == 0 then
    some ⟨true, []⟩
  else if !flags.verbose then
    match (if !flags.detailed then summaryFields noColorFlag t tfile else some []) with
    | none => none
    | some fields =>
      match (if flags.files || flags.detailed then fileListing noColorFlag t tfile
        else some []) with
      | none => none
      | some listing =>
        match (if flags.detailed then pieceDetails noColorFlag t tfile else some []) with
        | none => none
        | some details =>
          some ⟨false, t.format noColorFlag fileName t.bright :: (fields ++ listing ++ details ++ [""])⟩
  else
    some ⟨false, printDict noColorFlag t dict 1 ++ [""]⟩

/-- A field line of the compact view without styling: four spaces, the label,
`19 - 4 - len(label)` spaces, the value. -/
def fieldLine (label value : String) : String :=
  "    " ++ label ++ stringsRepeat " " (19 - 4 - label.length) ++ value

/-! ## Theorems -/

theorem toDigitsCore_isDigit (fuel : Nat) : ∀ (n : Nat) (acc : List Char),
    (∀ c ∈ acc, c.isDigit = true) → ∀ c ∈ Nat.toDigitsCore 10 fuel n acc, c.isDigit = true := by
  induction fuel with
  | zero => intro n acc h; simpa [Nat.toDigitsCore] using h
  | succ f ih =>
    intro n acc h
    have hd : (Nat.digitChar (n % 10)).isDigit = true := by
      have : n % 10 < 10 := Nat.mod_lt _ (by decide)
      interval_cases n % 10 <;> decide
    have h2 : ∀ c ∈ Nat.digitChar (n % 10) :: acc, c.isDigit = true := by
      intro c hc
      rcases List.mem_cons.1 hc with rfl | hc
      · exact hd
      · exact h c hc
    simp only [Nat.toDigitsCore]
    split
    · exact h2
    · exact ih _ _ h2

theorem toString_nat_isDigit (n : Nat) : ∀ c ∈ (toString n).data, c.isDigit = true := by
  show ∀ c ∈ (Nat.repr n).data, c.isDigit = true
  exact toDigitsCore_isDigit _ _ _ (by simp)

theorem roundTo53_of_lt {n : Nat} (h : n < 2 ^ 53) : roundTo53 n = n := by
  have hk : excessBits 11 n = 0 := by
    show excessBits (10 + 1) n = 0
    simp only [excessBits, if_pos h]
  simp only [roundTo53, hk]
  simp [Nat.mod_one]

theorem formatBytesLoop_step (sc : Int) (fuel n s : Nat) (i : Int)
    (h : 1024 * 2 ^ s < n) (hi : i < sc) :
    formatBytesLoop sc (fuel + 1) ⟨n, s⟩ i = formatBytesLoop sc fuel ⟨n, s + 10⟩ (i + 1) := by
  simp [formatBytesLoop, Float64.gt1024, Float64.div1024, h, hi]

theorem formatBytesLoop_stop (sc : Int) (fuel n s : Nat) (i : Int)
    (h : n ≤ 1024 * 2 ^ s) :
    formatBytesLoop sc (fuel + 1) ⟨n, s⟩ i = (⟨n, s⟩, i) := by
  simp [formatBytesLoop, Float64.gt1024, Nat.not_lt.2 h]

theorem formatBytesLoop_fuel (sc : Int) (fuel : Nat) : ∀ (bytes : Float64) (i : Int),
    (sc - i).toNat ≤ fuel →
    formatBytesLoop sc fuel bytes i = formatBytesLoop sc (sc - i).toNat bytes i := by
  induction fuel with
  | zero =>
    intro bytes i h
    have : (sc - i).toNat = 0 := by omega
    rw [this]
  | succ f ih =>
    intro bytes i h
    by_cases hc : (bytes.gt1024 && decide (i < sc)) = true
    · have hi : i < sc := by
        simp only [Bool.and_eq_true, decide_eq_true_eq] at hc
        exact hc.2
      have e : (sc - i).toNat = (sc - (i + 1)).toNat + 1 := by omega
      rw [e]
      simp only [formatBytesLoop, hc, if_true]
      exact ih _ _ (by omega)
    · cases hm : (sc - i).toNat with
      | zero => simp [formatBytesLoop, hc]
      | succ m => simp [formatBytesLoop, hc]

theorem hundredths_near (x : Float64) :
    |(x.num : ℚ) / 2 ^ x.shift * 100 - (x.hundredths : ℚ)| ≤ 1 / 2 := by
  obtain ⟨n, s⟩ := x
  have hpos : (0 : ℚ) < 2 ^ s := by positivity
  have hdiv : (n : ℚ) * 100 = ((n * 100 / 2 ^ s : Nat) : ℚ) * 2 ^ s + ((n * 100 % 2 ^ s : Nat) : ℚ) := by
    have := Nat.div_add_mod (n * 100) (2 ^ s)
    have h2 : ((2 ^ s * (n * 100 / 2 ^ s) + n * 100 % 2 ^ s : Nat) : ℚ) = ((n * 100 : Nat) : ℚ) := by
      rw [this]
    push_cast at h2
    linarith
  have hr : n * 100 % 2 ^ s < 2 ^ s := Nat.mod_lt _ (by positivity)
  have hrq : ((n * 100 % 2 ^ s : Nat) : ℚ) < 2 ^ s := by exact_mod_cast hr
  have hval : (n : ℚ) / 2 ^ s * 100 = ((n * 100 / 2 ^ s : Nat) : ℚ) + ((n * 100 % 2 ^ s : Nat) : ℚ) / 2 ^ s := by
    field_simp
    linarith
  simp only [Float64.hundredths]
  rw [hval]
  split
  · rename_i hc
    have h2 : (2 : ℚ) ^ s ≤ 2 * ((n * 100 % 2 ^ s : Nat) : ℚ) := by
      rcases hc with hc | ⟨hc, _⟩
      · exact_mod_cast hc.le
      · exact_mod_cast hc.ge
    have h3 : (1 : ℚ) / 2 ≤ ((n * 100 % 2 ^ s : Nat) : ℚ) / 2 ^ s := by
      rw [div_le_div_iff₀ (by norm_num) hpos]; linarith
    have h4 : ((n * 100 % 2 ^ s : Nat) : ℚ) / 2 ^ s < 1 := by
      rw [div_lt_one hpos]; exact hrq
    push_cast
    rw [abs_le]; constructor <;> linarith
  · rename_i hc
    have h2 : 2 * ((n * 100 % 2 ^ s : Nat) : ℚ) ≤ (2 : ℚ) ^ s := by
      have : ¬ (2 ^ s < 2 * (n * 100 % 2 ^ s)) := fun h => hc (Or.inl h)
      exact_mod_cast Nat.not_lt.1 this
    have h3 : ((n * 100 % 2 ^ s : Nat) : ℚ) / 2 ^ s ≤ 1 / 2 := by
      rw [div_le_div_iff₀ hpos (by norm_num)]; linarith
    have h4 : (0 : ℚ) ≤ ((n * 100 % 2 ^ s : Nat) : ℚ) / 2 ^ s := by positivity
    rw [abs_le]; constructor <;> linarith

theorem formatBytesLoop_spec (sc : Int) (n : Nat) : ∀ fuel i : Nat,
    ((i + fuel : Nat) : Int) ≤ sc → (∀ i', i' < i → 1024 ^ (i' + 1) < n) → n ≤ 1024 ^ (i + fuel) →
    ∃ j : Nat, i ≤ j ∧ j ≤ i + fuel ∧
      formatBytesLoop sc fuel ⟨n, 10 * i⟩ i = (⟨n, 10 * j⟩, (j : Int)) ∧
      n ≤ 1024 ^ (j + 1) ∧ ∀ j', j' < j → 1024 ^ (j' + 1) < n := by
  intro fuel
  induction fuel with
  | zero =>
    intro i _ hlow hup
    refine ⟨i, le_rfl, le_rfl, rfl, ?_, hlow⟩
    calc n ≤ 1024 ^ (i + 0) := hup
      _ ≤ 1024 ^ (i + 1) := Nat.pow_le_pow_right (by decide) (by omega)
  | succ f ih =>
    intro i hsc hlow hup
    have e : 1024 * 2 ^ (10 * i) = 1024 ^ (i + 1) := by
      rw [pow_succ, pow_mul]; norm_num [Nat.mul_comm]
    by_cases hgt : 1024 ^ (i + 1) < n
    · have hlow2 : ∀ i', i' < i + 1 → 1024 ^ (i' + 1) < n := by
        intro i' hi'
        rcases Nat.lt_succ_iff_lt_or_eq.1 hi' with h | h
        · exact hlow i' h
        · rw [h]; exact hgt
      obtain ⟨j, hj1, hj2, hj3, hj4, hj5⟩ :=
        ih (i + 1) (by push_cast at hsc ⊢; omega) hlow2 (by rw [show i + 1 + f = i + (f + 1) by omega]; exact hup)
      refine ⟨j, by omega, by omega, ?_, hj4, hj5⟩
      rw [formatBytesLoop_step sc f n (10 * i) i (by rw [e]; exact hgt) (by push_cast at hsc; omega)]
      rw [show 10 * i + 10 = 10 * (i + 1) by ring]
      exact_mod_cast hj3
    · refine ⟨i, le_rfl, by omega, ?_, Nat.not_lt.1 hgt, hlow⟩
      exact formatBytesLoop_stop sc f n (10 * i) i (by rw [e]; exact Nat.not_lt.1 hgt)

/-- C1. `formatBytes 1024` does not return `1.00 KB`: the guard `size < 1024`
lets `1024` through, the loop condition `bytes > 1024` is false at once, `i` stays
`0` and the index expression `suffixArray[i-1]` panics. -/
theorem formatBytes_1024_panics : formatBytes 1024 = none := by decide

/-- C2. `formatBytes` is not total on `uint64`: at `size = 1024` the loop ends
with `i = 0`, the index `i - 1 = -1` is out of range and no string is returned. -/
theorem formatBytes_index_out_of_range :
    formatBytesLoop 8 8 (Float64.ofUint64 1024) 0 = (⟨1024, 0⟩, 0) ∧
    index suffixArray (0 - 1) = none ∧
    ¬ ∀ size : Nat, size < 2 ^ 64 → (formatBytes size).isSome = true := by
  refine ⟨by decide, by decide, fun h => ?_⟩
  have := h 1024 (by norm_num)
  exact absurd this (by decide)

/-- C3. The powers `1024 ^ k`, `2 ≤ k ≤ 6`, do not cross into the next unit: the
loop stops as soon as the value is `1024`, so they are rendered with the numeric
part `1024.00` and the unit of `k - 1` (`formatBytes (1024 * 1024)` is
`1024.00 KB`, not `1.00 MB`). -/
theorem formatBytes_pow1024_not_crossed :
    formatBytes (1024 * 1024) = some "1024.00 KB" ∧
    formatBytes (1024 ^ 3) = some "1024.00 MB" ∧
    formatBytes (1024 ^ 4) = some "1024.00 GB" ∧
    formatBytes (1024 ^ 5) = some "1024.00 TB" ∧
    formatBytes (1024 ^ 6) = some "1024.00 PB" := by
  refine ⟨by decide, by decide, by decide, by decide, by decide⟩

/-- C4. For `size < 1024`, `formatBytes size` is the decimal representation of
`size` (digits only: no fractional part, no unit prefix letter) followed by ` B`;
`formatBytes 0` is `0 B` and `formatBytes 1023` is `1023 B`. -/
theorem formatBytes_below_1024 (size : Nat) (h : size < 1024) :
    formatBytes size = some (toString size ++ " B") ∧
    (∀ c ∈ (toString size).data, c.isDigit = true) ∧
    formatBytes 0 = some "0 B" ∧ formatBytes 1023 = some "1023 B" := by
  refine ⟨?_, toString_nat_isDigit size, by decide, by decide⟩
  simp only [formatBytes, if_pos h]

theorem formatBytes_below_1024_witness :
    formatBytes 500 = some "500 B" ∧ ∀ c ∈ (toString 500).data, c.isDigit = true :=
  ⟨(formatBytes_below_1024 500 (by decide)).1, (formatBytes_below_1024 500 (by decide)).2.1⟩

/-- C5. For `1024 < size < 2 ^ 53` the conversion to `float64` is exact, the loop
of `formatBytes` divides by `1024` exactly `j` times, `j` being the least `j ≥ 1`
with `size / 1024 ^ j ≤ 1024`, and the result is the exact quotient
`size / 1024 ^ j` rounded to hundredths (`c` is a nearest integer to
`100 * size / 1024 ^ j`), printed with two decimals, a space, the `j`-th letter of
`K, M, G, T, P, E, Z, Y` and `B`; `formatBytes 2048` is `2.00 KB` and
`formatBytes 16384` is `16.00 KB`. -/
theorem formatBytes_exact_quotient (size : Nat) (h1 : 1024 < size) (h2 : size < 2 ^ 53) :
    (∃ (j c : Nat) (u : Char),
      1 ≤ j ∧
      formatBytesLoop 8 8 (Float64.ofUint64 size) 0 = (⟨size, 10 * j⟩, (j : Int)) ∧
      (size : ℚ) / 1024 ^ j ≤ 1024 ∧
      (∀ j', 1 ≤ j' → j' < j → (1024 : ℚ) < size / 1024 ^ j') ∧
      |(size : ℚ) / 1024 ^ j * 100 - c| ≤ 1 / 2 ∧
      suffixArray[j - 1]? = some u ∧
      formatBytes size = some (fixed2 c ++ " " ++ String.singleton u ++ "B")) ∧
    formatBytes 2048 = some "2.00 KB" ∧ formatBytes 16384 = some "16.00 KB" := by
  refine ⟨?_, by decide, by decide⟩
  have hconv : Float64.ofUint64 size = ⟨size, 0⟩ := by
    simp [Float64.ofUint64, roundTo53_of_lt h2]
  obtain ⟨j, -, hj8, hloop, hup, hlow⟩ :=
    formatBytesLoop_spec 8 size 8 0 (by norm_num) (by intro i' hi'; omega)
      (by calc size ≤ 2 ^ 53 := h2.le
            _ ≤ 1024 ^ (0 + 8) := by norm_num)
  have hj1 : 1 ≤ j := by
    rcases Nat.eq_zero_or_pos j with h0 | h0
    · subst h0; norm_num at hup; omega
    · exact h0
  have hlt : j - 1 < suffixArray.length := by simp [suffixArray]; omega
  have hpow : ∀ k : Nat, (0 : ℚ) < 1024 ^ k := fun k => by positivity
  refine ⟨j, (⟨size, 10 * j⟩ : Float64).hundredths, suffixArray[j - 1], hj1, ?_, ?_, ?_, ?_, ?_, ?_⟩
  · rw [hconv]; exact hloop
  · rw [div_le_iff₀ (hpow j)]
    have : (size : ℚ) ≤ ((1024 ^ (j + 1) : Nat) : ℚ) := by exact_mod_cast hup
    push_cast at this
    rw [pow_succ] at this
    linarith
  · intro j' _ hj'
    rw [lt_div_iff₀ (hpow j')]
    have : ((1024 ^ (j' + 1) : Nat) : ℚ) < (size : ℚ) := by exact_mod_cast hlow j' hj'
    push_cast at this
    rw [pow_succ] at this
    linarith
  · have := hundredths_near ⟨size, 10 * j⟩
    have e : (2 : ℚ) ^ (10 * j) = 1024 ^ j := by rw [pow_mul]; norm_num
    simpa [e] using this
  · exact List.getElem?_eq_getElem hlt
  · have hsz : ¬ size < 1024 := by omega
    have hidx : index suffixArray ((j : Int) - 1) = some suffixArray[j - 1] := by
      have hnn : ¬ ((j : Int) - 1 < 0) := by omega
      have htn : ((j : Int) - 1).toNat = j - 1 := by omega
      simp only [index, if_neg hnn, htn]
      exact List.getElem?_eq_getElem hlt
    have hloop2 : formatBytesLoop (↑suffixArray.length) (↑suffixArray.length : Int).toNat
        (Float64.ofUint64 size) 0 = (⟨size, 10 * j⟩, (j : Int)) := by
      rw [hconv]; exact hloop
    simp only [formatBytes, if_neg hsz, hloop2, hidx, Float64.format2]

theorem formatBytes_exact_quotient_witness :
    ∃ (j c : Nat) (u : Char),
      1 ≤ j ∧
      formatBytesLoop 8 8 (Float64.ofUint64 1536) 0 = (⟨1536, 10 * j⟩, (j : Int)) ∧
      ((1536 : Nat) : ℚ) / 1024 ^ j ≤ 1024 ∧
      (∀ j', 1 ≤ j' → j' < j → (1024 : ℚ) < ((1536 : Nat) : ℚ) / 1024 ^ j') ∧
      |((1536 : Nat) : ℚ) / 1024 ^ j * 100 - c| ≤ 1 / 2 ∧
      suffixArray[j - 1]? = some u ∧
      formatBytes 1536 = some (fixed2 c ++ " " ++ String.singleton u ++ "B") :=
  (formatBytes_exact_quotient 1536 (by decide) (by decide)).1

/-! ### The renderer: unfolding -/

theorem printDict_eq (noColorFlag : Bool) (t : textFormatter) (dict : List (String × Value))
    (indent : Nat) :
    printDict noColorFlag t dict indent =
      (sortStrings (dict.map Prod.fst)).flatMap fun key =>
        keyLine noColorFlag t key indent ::
          printDictValue noColorFlag t (dict.lookup key) key indent := by
  rw [printDict]
  simp only [keyLine]
  congr 1
  funext key
  congr 1
  unfold printDictValue
  split <;> rename_i hq <;> rw [hq]

theorem printList_single (noColorFlag : Bool) (t : textFormatter) (x : Value) (indent : Nat) :
    printList noColorFlag t [x] indent = [stringsRepeat " " (indent * 4) ++ fmtSprint x] := by
  rw [printList]
  simp

theorem printList_eq (noColorFlag : Bool) (t : textFormatter) (list : List Value) (indent : Nat)
    (h : list.length ≠ 1) :
    printList noColorFlag t list indent =
      list.enum.flatMap fun p =>
        indexLine noColorFlag t p.1 indent :: printListValue noColorFlag t p.2 indent := by
  rw [printList]
  simp only [dif_neg h, indexLine]
  have key : ∀ (l : List (Nat × Value)) (f : Nat × Value → List String),
      l.attach.flatMap (fun p => f p.1) = l.flatMap f := by
    intro l f
    simp only [List.flatMap, List.attach_map_coe]
  rw [← key]
  congr 1
  funext p
  congr 1
  unfold printListValue
  split <;> simp_all

/-! ### Sorting of the keys and map lookup -/

theorem sortStrings_perm (l : List String) : (sortStrings l).Perm l :=
  List.perm_insertionSort _ l

theorem sortStrings_sorted (l : List String) :
    (sortStrings l).Sorted (fun a b => a.data ≤ b.data) := by
  haveI : IsTotal String (fun a b => a.data ≤ b.data) := ⟨fun a b => le_total a.data b.data⟩
  haveI : IsTrans String (fun a b => a.data ≤ b.data) := ⟨fun _ _ _ h1 h2 => le_trans h1 h2⟩
  exact List.sorted_insertionSort _ l

theorem sortStrings_strict (l : List String) (h : l.Nodup) :
    (sortStrings l).Sorted (fun a b => a < b) := by
  have hnd : (sortStrings l).Nodup := (sortStrings_perm l).nodup_iff.2 h
  have hboth := List.Pairwise.and (sortStrings_sorted l) hnd
  refine List.Pairwise.imp ?_ hboth
  intro a b hab
  obtain ⟨hle, hne⟩ := hab
  rw [String.lt_iff_toList_lt]
  exact lt_of_le_of_ne hle (fun he => hne (String.ext he))

theorem sortStrings_congr {l₁ l₂ : List String} (h : l₁.Perm l₂) :
    sortStrings l₁ = sortStrings l₂ := by
  haveI : IsAntisymm String (fun a b => a.data ≤ b.data) :=
    ⟨fun _ _ h1 h2 => String.ext (le_antisymm h1 h2)⟩
  exact List.eq_of_perm_of_sorted
    (((sortStrings_perm l₁).trans h).trans (sortStrings_perm l₂).symm)
    (sortStrings_sorted l₁) (sortStrings_sorted l₂)

theorem lookup_of_mem {k : String} {v : Value} : ∀ {dict : List (String × Value)},
    (dict.map Prod.fst).Nodup → (k, v) ∈ dict → dict.lookup k = some v := by
  intro dict
  induction dict with
  | nil => intro _ hm; simp at hm
  | cons p rest ih =>
    obtain ⟨k', w⟩ := p
    intro hnd hm
    simp only [List.map_cons, List.nodup_cons] at hnd
    rcases List.mem_cons.1 hm with he | hr
    · cases he
      simp [List.lookup]
    · have hne : k ≠ k' := by
        intro he
        subst he
        exact hnd.1 (List.mem_map.2 ⟨(k, v), hr, rfl⟩)
      have hb : (k == k') = false := by simpa using hne
      simp only [List.lookup, hb]
      exact ih hnd.2 hr

theorem mem_of_lookup {k : String} {v : Value} : ∀ {dict : List (String × Value)},
    dict.lookup k = some v → (k, v) ∈ dict := by
  intro dict
  induction dict with
  | nil => intro h; simp at h
  | cons p rest ih =>
    obtain ⟨k', w⟩ := p
    intro h
    simp only [List.lookup] at h
    split at h
    · rename_i hb
      have : k = k' := by simpa using hb
      cases h
      subst this
      exact List.mem_cons_self _ _
    · exact List.mem_cons_of_mem _ (ih h)

theorem lookup_none_of_not_mem {k : String} : ∀ {dict : List (String × Value)},
    k ∉ dict.map Prod.fst → dict.lookup k = none := by
  intro dict
  induction dict with
  | nil => intro _; rfl
  | cons p rest ih =>
    obtain ⟨k', w⟩ := p
    intro h
    simp only [List.map_cons, List.mem_cons, not_or] at h
    have hb : (k == k') = false := by simpa using h.1
    simp only [List.lookup, hb]
    exact ih h.2

theorem lookup_perm {d₁ d₂ : List (String × Value)} (h : d₁.Perm d₂)
    (hnd : (d₂.map Prod.fst).Nodup) (key : String) : d₁.lookup key = d₂.lookup key := by
  have hnd1 : (d₁.map Prod.fst).Nodup := (h.map Prod.fst).nodup_iff.2 hnd
  cases h2 : d₂.lookup key with
  | some v => exact lookup_of_mem hnd1 (h.mem_iff.2 (mem_of_lookup h2))
  | none =>
    apply lookup_none_of_not_mem
    intro hm
    obtain ⟨p, hp, hpk⟩ := List.mem_map.1 hm
    obtain ⟨k', v⟩ := p
    simp only at hpk
    subst hpk
    have := lookup_of_mem hnd (h.mem_iff.1 hp)
    rw [h2] at this
    cases this

theorem format_foldl_zero (escape : Char) (mapping : List (Nat × String)) (acc : String) :
    mapping.foldl
      (fun codestring p =>
        if p.1 &&& 0 ≠ 0 then codestring ++ (String.singleton escape ++ p.2) else codestring)
      acc = acc := by
  induction mapping generalizing acc with
  | nil => rfl
  | cons p rest ih =>
    rw [List.foldl_cons, ih]
    simp

theorem stringsRepeat_length (n : Nat) : (stringsRepeat " " n).length = n := by
  induction n with
  | zero => rfl
  | succ k ih =>
    rw [stringsRepeat, String.length_append, ih]
    show 1 + k = k + 1
    omega

/-! ### The claims about the renderer -/

/-- C7. A byte string `s` stored directly under the key `k` of a dictionary with
distinct keys is printed on the line right after the key line of `k`. Under the
key `pieces` that line is the indentation and the styled text `[N UTF-8 Bytes]`,
`N` being the byte length of `s`, and it is the same for every string of that
length; under any other key it is the indentation and `s` itself, unstyled. -/
theorem printDict_string_value (noColorFlag : Bool) (t : textFormatter)
    (dict : List (String × Value)) (indent : Nat) (k s : String)
    (hkeys : (dict.map Prod.fst).Nodup) (hmem : (k, Value.str s) ∈ dict) :
    (∃ before after, printDict noColorFlag t dict indent =
      before ++ keyLine noColorFlag t k indent ::
        (stringsRepeat " " ((indent + 1) * 4) ++
          (if k = "pieces" then
            t.format noColorFlag ("[" ++ toString s.utf8ByteSize ++ " UTF-8 Bytes]")
              (t.red ||| t.bright)
          else s)) :: after) ∧
    (∀ s' : String, s'.utf8ByteSize = s.utf8ByteSize →
      printString noColorFlag t s' "pieces" indent = printString noColorFlag t s "pieces" indent) ∧
    (k ≠ "pieces" →
      printString noColorFlag t s k indent = [stringsRepeat " " ((indent + 1) * 4) ++ s]) := by
  refine ⟨?_, ?_, ?_⟩
  · have hk : k ∈ sortStrings (dict.map Prod.fst) :=
      (sortStrings_perm _).mem_iff.2 (List.mem_map.2 ⟨(k, Value.str s), hmem, rfl⟩)
    obtain ⟨l₁, l₂, hl⟩ := List.append_of_mem hk
    refine ⟨l₁.flatMap (fun key => keyLine noColorFlag t key indent ::
        printDictValue noColorFlag t (dict.lookup key) key indent),
      l₂.flatMap (fun key => keyLine noColorFlag t key indent ::
        printDictValue noColorFlag t (dict.lookup key) key indent), ?_⟩
    rw [printDict_eq, hl, List.flatMap_append, List.flatMap_cons, lookup_of_mem hkeys hmem]
    simp only [printDictValue, printString]
    split <;> simp
  · intro s' hs'
    simp only [printString, hs', if_true]
  · intro hne
    simp only [printString, if_neg hne]

theorem printDict_string_value_witness :
    ∃ before after,
      printDict true textFormatter.init
          [("pieces", Value.str "abcde"), ("name", Value.str "x")] 1 =
        before ++ keyLine true textFormatter.init "pieces" 1 ::
          (stringsRepeat " " ((1 + 1) * 4) ++
            (if "pieces" = "pieces" then
              textFormatter.init.format true ("[" ++ toString "abcde".utf8ByteSize ++ " UTF-8 Bytes]")
                (textFormatter.init.red ||| textFormatter.init.bright)
            else "abcde")) :: after :=
  (printDict_string_value true textFormatter.init
    [("pieces", Value.str "abcde"), ("name", Value.str "x")] 1 "pieces" "abcde"
    (by decide) (by simp)).1

/-- C8. A list of exactly one element is printed as the line of that element
alone, without an index line. For a list of two or more elements `printList`
prints, for each position `i = 0, 1, ..., n-1` in the original order, the index
line with the decimal text of `i` immediately followed by the rendering of
element `i`. -/
theorem printList_index_labels (noColorFlag : Bool) (t : textFormatter) (list : List Value)
    (indent : Nat) (h : 2 ≤ list.length) :
    printList noColorFlag t list indent =
      list.enum.flatMap (fun p =>
        indexLine noColorFlag t p.1 indent :: printListValue noColorFlag t p.2 indent) ∧
    list.enum.map Prod.fst = List.range list.length ∧
    list.enum.map Prod.snd = list ∧
    (∀ key : Nat, indexLine noColorFlag t key indent =
      stringsRepeat " " (indent * 4) ++
        t.format noColorFlag (toString key) (t.bright ||| t.yellow)) ∧
    (∀ x : Value, printList noColorFlag t [x] indent =
      [stringsRepeat " " (indent * 4) ++ fmtSprint x]) := by
  refine ⟨printList_eq _ _ _ _ (by omega), List.enum_map_fst _, List.enum_map_snd _,
    fun _ => rfl, fun x => printList_single _ _ x _⟩

theorem printList_index_labels_witness :
    printList true textFormatter.init [Value.str "a", Value.int64 7] 1 =
      ["    0", "        a", "    1", "        7"] := by
  rw [(printList_index_labels true textFormatter.init [Value.str "a", Value.int64 7] 1
    (by decide)).1]
  decide

/-- C9 (as stated, refuted). A one-element list is not rendered by the dispatch
rule of its element: with styling enabled the integer `5` is printed as the plain
line `    5`, which is not the cyan rendering of `printInt` at any depth, and a
dictionary element is printed on one line in the default `map[...]` form instead
of one key per line. -/
theorem printList_single_not_dispatched :
    printList false textFormatter.init [Value.int64 5] 1 = ["    5"] ∧
    (¬ ∃ depth : Nat, printListValue false textFormatter.init (Value.int64 5) depth =
      printList false textFormatter.init [Value.int64 5] 1) ∧
    printList true textFormatter.init
        [Value.dict [("b", Value.int64 1), ("a", Value.str "x")]] 1 = ["    map[a:x b:1]"] ∧
    printListValue true textFormatter.init
        (Value.dict [("b", Value.int64 1), ("a", Value.str "x")]) 1 =
      ["        a", "            x", "        b", "            1"] := by
  have h1 : printList false textFormatter.init [Value.int64 5] 1 = ["    5"] := by
    rw [printList_single]; decide
  refine ⟨h1, ?_, ?_, ?_⟩
  · rintro ⟨depth, hd⟩
    rw [h1] at hd
    have hf : textFormatter.init.format false (toString (5 : Int)) textFormatter.init.cyan =
        String.singleton (Char.ofNat 0x1b) ++ "[36m5" ++ String.singleton (Char.ofNat 0x1b) ++ "[0m" := by
      decide
    simp only [printListValue, printInt, hf, List.cons.injEq, and_true] at hd
    have hlen := congrArg String.length hd
    simp only [String.length_append, stringsRepeat_length] at hlen
    have e1 : (String.singleton (Char.ofNat 0x1b)).length = 1 := by decide
    have e2 : "[36m5".length = 5 := by decide
    have e3 : "[0m".length = 3 := by decide
    have e4 : "    5".length = 5 := by decide
    rw [e1, e2, e3, e4] at hlen
    omega
  · rw [printList_single]; decide
  · show printDict true textFormatter.init [("b", Value.int64 1), ("a", Value.str "x")] (1 + 1) = _
    rw [printDict]; decide

/-- C9 (amended). A one-element list is printed as exactly one line and without an
index line: the indentation of `4 * indent` spaces of the list itself, followed by
the default text of the element, unstyled: a byte string as it is, an integer in
decimal, a list as `[e1 e2 ...]` and a dictionary as `map[k1:v1 ...]`. -/
theorem printList_single_default_format (noColorFlag : Bool) (t : textFormatter) (x : Value)
    (indent : Nat) :
    printList noColorFlag t [x] indent = [stringsRepeat " " (indent * 4) ++ fmtSprint x] ∧
    (∀ s : String, fmtSprint (Value.str s) = s) ∧
    (∀ n : Int, fmtSprint (Value.int64 n) = toString n) ∧
    (∀ xs : List Value,
      fmtSprint (Value.list xs) = "[" ++ " ".intercalate (fmtSprintList xs) ++ "]") ∧
    (∀ d : List (String × Value),
      fmtSprint (Value.dict d) =
        "map[" ++ " ".intercalate (((fmtSprintDict d).insertionSort
          (fun a b => a.1.data ≤ b.1.data)).map (fun p => p.1 ++ ":" ++ p.2)) ++ "]") := by
  refine ⟨printList_single _ _ _ _, fun s => ?_, fun n => ?_, fun xs => ?_, fun d => ?_⟩
  · simp only [fmtSprint]
  · simp only [fmtSprint]
  · simp only [fmtSprint]
  · simp only [fmtSprint]

/-- C10. `textFormatter.format` returns its text unchanged, without an escape
sequence and without a reset, for every text and every format when styling is
disabled, and with styling enabled for every text when the format is the empty
tag set `0` (the value of `none`). -/
theorem format_unchanged (t : textFormatter) (s : String) (format : Nat) :
    t.format true s format = s ∧ t.format false s 0 = s ∧ textFormatter.init.none = 0 := by
  refine ⟨by simp [textFormatter.format], ?_, rfl⟩
  simp only [textFormatter.format, format_foldl_zero]
  simp

/-! ### The loop of `formatBytes` on the whole `uint64` range -/

theorem excessBits_le (fuel : Nat) : ∀ n : Nat, excessBits fuel n ≤ fuel := by
  induction fuel with
  | zero => intro n; simp [excessBits]
  | succ f ih =>
    intro n
    simp only [excessBits]
    split
    · omega
    · have := ih (n / 2); omega

theorem roundTo53_bounds (n : Nat) :
    n / 2 ^ excessBits 11 n * 2 ^ excessBits 11 n ≤ roundTo53 n ∧
    roundTo53 n ≤ (n / 2 ^ excessBits 11 n + 1) * 2 ^ excessBits 11 n := by
  simp only [roundTo53]
  split
  · exact ⟨Nat.mul_le_mul_right _ (Nat.le_succ _), le_rfl⟩
  · exact ⟨le_rfl, Nat.mul_le_mul_right _ (Nat.le_succ _)⟩

theorem roundTo53_le (n : Nat) (h : n < 2 ^ 64) : roundTo53 n ≤ 2 ^ 64 := by
  have hk := excessBits_le 11 n
  have hb := (roundTo53_bounds n).2
  generalize excessBits 11 n = k at hk hb
  have hpow : 2 ^ 64 = 2 ^ (64 - k) * 2 ^ k := by
    rw [← pow_add]; congr 1; omega
  have hq : n / 2 ^ k < 2 ^ (64 - k) := by
    rw [Nat.div_lt_iff_lt_mul (by positivity)]
    rw [← hpow]; exact h
  calc roundTo53 n ≤ (n / 2 ^ k + 1) * 2 ^ k := hb
    _ ≤ 2 ^ (64 - k) * 2 ^ k := Nat.mul_le_mul_right _ hq
    _ = 2 ^ 64 := hpow.symm

theorem roundTo53_gt (n : Nat) (h : 1024 < n) : 1024 < roundTo53 n := by
  by_cases hs : n < 2 ^ 53
  · rw [roundTo53_of_lt hs]; exact h
  · have hk := excessBits_le 11 n
    have hb := (roundTo53_bounds n).1
    generalize excessBits 11 n = k at hk hb
    have hmod : n % 2 ^ k < 2 ^ k := Nat.mod_lt _ (by positivity)
    have hp : 2 ^ k ≤ 2 ^ 11 := Nat.pow_le_pow_right (by decide) hk
    have hdm := Nat.div_add_mod n (2 ^ k)
    have hcomm : n / 2 ^ k * 2 ^ k = 2 ^ k * (n / 2 ^ k) := Nat.mul_comm _ _
    norm_num at hs hp
    omega

theorem formatBytes_of_loop (size : Nat) (hsz : ¬ size < 1024) (bytes : Float64) (j : Nat)
    (u : Char) (hj : 1 ≤ j) (hu : suffixArray[j - 1]? = some u)
    (hloop : formatBytesLoop 8 8 (Float64.ofUint64 size) 0 = (bytes, (j : Int))) :
    index suffixArray ((j : Int) - 1) = some u ∧
    formatBytes size = some (bytes.format2 ++ " " ++ String.singleton u ++ "B") := by
  have hidx : index suffixArray ((j : Int) - 1) = some u := by
    have hnn : ¬ ((j : Int) - 1 < 0) := by omega
    have htn : ((j : Int) - 1).toNat = j - 1 := by omega
    simp only [index, if_neg hnn, htn]
    exact hu
  refine ⟨hidx, ?_⟩
  have hloop2 : formatBytesLoop (↑suffixArray.length) (↑suffixArray.length : Int).toNat
      (Float64.ofUint64 size) 0 = (bytes, (j : Int)) := hloop
  simp only [formatBytes, if_neg hsz, hloop2, hidx]

theorem suffixArray_first_six (j : Nat) (h1 : 1 ≤ j) (h6 : j ≤ 6) :
    ∃ u : Char, suffixArray[j - 1]? = some u ∧
      u ∈ ['K', 'M', 'G', 'T', 'P', 'E'] ∧ u ≠ 'Z' ∧ u ≠ 'Y' := by
  have hj : j = 1 ∨ j = 2 ∨ j = 3 ∨ j = 4 ∨ j = 5 ∨ j = 6 := by omega
  rcases hj with rfl | rfl | rfl | rfl | rfl | rfl
  · exact ⟨'K', rfl, by decide, by decide, by decide⟩
  · exact ⟨'M', rfl, by decide, by decide, by decide⟩
  · exact ⟨'G', rfl, by decide, by decide, by decide⟩
  · exact ⟨'T', rfl, by decide, by decide, by decide⟩
  · exact ⟨'P', rfl, by decide, by decide, by decide⟩
  · exact ⟨'E', rfl, by decide, by decide, by decide⟩

theorem formatBytes_loop_uint64 (size : Nat) (h1 : 1024 < size) (h2 : size < 2 ^ 64) :
    ∃ j : Nat, 1 ≤ j ∧ j ≤ 6 ∧
      formatBytesLoop 8 8 (Float64.ofUint64 size) 0 = (⟨roundTo53 size, 10 * j⟩, (j : Int)) ∧
      roundTo53 size ≤ 1024 ^ (j + 1) := by
  obtain ⟨j, -, _, hloop, hup, hlow⟩ :=
    formatBytesLoop_spec 8 (roundTo53 size) 8 0 (by norm_num) (by intro i' hi'; omega)
      (by calc roundTo53 size ≤ 2 ^ 64 := roundTo53_le size h2
            _ ≤ 1024 ^ (0 + 8) := by norm_num)
  have hgt := roundTo53_gt size h1
  have hle := roundTo53_le size h2
  refine ⟨j, ?_, ?_, hloop, hup⟩
  · rcases Nat.eq_zero_or_pos j with h0 | h0
    · subst h0; norm_num at hup; omega
    · exact h0
  · by_contra hc
    have h7 : 6 < j := by omega
    have := hlow 6 h7
    norm_num at this hle
    omega

/-- C19. For every `uint64` size above `1024` the loop of `formatBytes` ends with
`1 ≤ i ≤ 6` and with a value that is no longer above `1024` (so it did not stop
because the units ran out), the index `i - 1` is in range and the unit letter is
one of `K, M, G, T, P, E`, never `Z` or `Y`; among the `uint64` sizes from `1024`
on, the index is out of range exactly for `size = 1024`. -/
theorem formatBytes_unit_range (size : Nat) (h1 : 1024 < size) (h2 : size < 2 ^ 64) :
    (∃ (bytes : Float64) (j : Nat) (u : Char),
      formatBytesLoop 8 8 (Float64.ofUint64 size) 0 = (bytes, (j : Int)) ∧
      1 ≤ j ∧ j ≤ 6 ∧ bytes.gt1024 = false ∧
      index suffixArray ((j : Int) - 1) = some u ∧
      u ∈ ['K', 'M', 'G', 'T', 'P', 'E'] ∧ u ≠ 'Z' ∧ u ≠ 'Y' ∧
      formatBytes size = some (bytes.format2 ++ " " ++ String.singleton u ++ "B")) ∧
    (∀ n : Nat, 1024 ≤ n → n < 2 ^ 64 → (formatBytes n = none ↔ n = 1024)) := by
  have main : ∀ n : Nat, 1024 < n → n < 2 ^ 64 →
      ∃ (bytes : Float64) (j : Nat) (u : Char),
        formatBytesLoop 8 8 (Float64.ofUint64 n) 0 = (bytes, (j : Int)) ∧
        1 ≤ j ∧ j ≤ 6 ∧ bytes.gt1024 = false ∧
        index suffixArray ((j : Int) - 1) = some u ∧
        u ∈ ['K', 'M', 'G', 'T', 'P', 'E'] ∧ u ≠ 'Z' ∧ u ≠ 'Y' ∧
        formatBytes n = some (bytes.format2 ++ " " ++ String.singleton u ++ "B") := by
    intro n hn1 hn2
    obtain ⟨j, hj1, hj6, hloop, hup⟩ := formatBytes_loop_uint64 n hn1 hn2
    obtain ⟨u, hu, hu1, hu2, hu3⟩ := suffixArray_first_six j hj1 hj6
    obtain ⟨hidx, hfmt⟩ :=
      formatBytes_of_loop n (by omega) ⟨roundTo53 n, 10 * j⟩ j u hj1 hu hloop
    have hstop : (⟨roundTo53 n, 10 * j⟩ : Float64).gt1024 = false := by
      have e : 1024 * 2 ^ (10 * j) = 1024 ^ (j + 1) := by
        rw [pow_succ, pow_mul]; norm_num [Nat.mul_comm]
      simp only [Float64.gt1024, e, decide_eq_false_iff_not, not_lt]
      exact hup
    exact ⟨_, j, u, hloop, hj1, hj6, hstop, hidx, hu1, hu2, hu3, hfmt⟩
  refine ⟨main size h1 h2, ?_⟩
  intro n hn1 hn2
  constructor
  · intro hnone
    by_contra hne
    obtain ⟨_, _, _, _, _, _, _, _, _, _, _, hsome⟩ := main n (by omega) hn2
    rw [hsome] at hnone
    cases hnone
  · rintro rfl
    decide

theorem formatBytes_unit_range_witness :
    ∃ (bytes : Float64) (j : Nat) (u : Char),
      formatBytesLoop 8 8 (Float64.ofUint64 (2 ^ 64 - 1)) 0 = (bytes, (j : Int)) ∧
      1 ≤ j ∧ j ≤ 6 ∧ bytes.gt1024 = false ∧
      index suffixArray ((j : Int) - 1) = some u ∧
      u ∈ ['K', 'M', 'G', 'T', 'P', 'E'] ∧ u ≠ 'Z' ∧ u ≠ 'Y' ∧
      formatBytes (2 ^ 64 - 1) = some (bytes.format2 ++ " " ++ String.singleton u ++ "B") :=
  (formatBytes_unit_range (2 ^ 64 - 1) (by decide) (by decide)).1

/-! ### textFormatter.format with styling enabled -/

theorem format_foldl_eq (escape : Char) (format : Nat) (mapping : List (Nat × String)) :
    ∀ acc : String,
      mapping.foldl
        (fun codestring p =>
          if p.1 &&& format ≠ 0 then codestring ++ (String.singleton escape ++ p.2)
          else codestring) acc =
      acc ++ escapeCodes escape (mapping.filter (hasTag format)) := by
  induction mapping with
  | nil => intro acc; simp [escapeCodes]
  | cons p rest ih =>
    intro acc
    rw [List.foldl_cons, ih]
    by_cases hp : p.1 &&& format ≠ 0
    · have hf : hasTag format p = true := decide_eq_true hp
      rw [List.filter_cons_of_pos hf, if_pos hp]
      simp only [escapeCodes, String.append_assoc]
    · have hf : ¬ hasTag format p = true := by
        intro h; exact hp (of_decide_eq_true h)
      rw [List.filter_cons_of_neg hf, if_neg hp]

theorem escapeCodes_ne_empty (escape : Char) {codes : List (Nat × String)} (h : codes ≠ []) :
    escapeCodes escape codes ≠ "" := by
  cases codes with
  | nil => exact absurd rfl h
  | cons p ps =>
    intro he
    have := congrArg String.length he
    simp only [escapeCodes, String.length_append] at this
    have e1 : (String.singleton escape).length = 1 := rfl
    have e2 : "".length = 0 := rfl
    rw [e1, e2] at this
    omega

theorem format_eq (t : textFormatter) (s : String) (format : Nat) :
    t.format false s format =
      if t.mapping.filter (hasTag format) = [] then s
      else escapeCodes t.escape (t.mapping.filter (hasTag format)) ++ s ++
        String.singleton t.escape ++ t.reset := by
  unfold textFormatter.format
  rw [if_pos (by rfl), format_foldl_eq, String.empty_append]
  by_cases h : t.mapping.filter (hasTag format) = []
  · rw [h, if_pos rfl]
    show (if escapeCodes t.escape [] ≠ "" then _ else s) = s
    rw [if_neg (by simp [escapeCodes])]
  · rw [if_neg h]
    show (if escapeCodes t.escape (t.mapping.filter (hasTag format)) ≠ "" then _ else s) = _
    rw [if_pos (escapeCodes_ne_empty t.escape h)]

set_option maxRecDepth 100000 in
theorem tagCodes_filter_ne_nil : ∀ format : Nat, format < 0x200 → format ≠ 0 →
    format &&& 1 = 0 → tagCodes.filter (hasTag format) ≠ [] := by
  decide

theorem init_mapping_eq : textFormatter.init.mapping = (1, "[0m") :: tagCodes := rfl

theorem filter_init_mapping (format : Nat) (hnormal : format &&& textFormatter.init.normal = 0) :
    textFormatter.init.mapping.filter (hasTag format) = tagCodes.filter (hasTag format) := by
  have hf : ¬ hasTag format (1, "[0m") = true := by
    intro h
    have h1 : (1 : Nat) &&& format ≠ 0 := of_decide_eq_true h
    rw [Nat.land_comm] at h1
    exact h1 hnormal
  rw [init_mapping_eq, List.filter_cons_of_neg hf]

/-- C11. With styling enabled and a format that is a non-empty combination of the
tags bright, dull, white, green, cyan, yellow, red, magenta, the result of `format`
is, for every order in which the mapping is enumerated, one escape sequence (the
escape byte and the code of the tag) for each tag present and none for an absent
tag, followed by the text, followed by one reset sequence `ESC[0m`. -/
theorem format_styled (m : List (Nat × String)) (s : String) (format : Nat)
    (hm : m.Perm textFormatter.init.mapping) (hlt : format < 0x200) (hne : format ≠ 0)
    (hnormal : format &&& textFormatter.init.normal = 0) :
    ∃ codes : List (Nat × String),
      codes = m.filter (hasTag format) ∧
      codes.Perm (tagCodes.filter (hasTag format)) ∧
      (∀ p : Nat × String, p ∈ codes ↔ p ∈ tagCodes ∧ p.1 &&& format ≠ 0) ∧
      codes.Nodup ∧ codes ≠ [] ∧
      ({ textFormatter.init with mapping := m }).format false s format =
        escapeCodes (Char.ofNat 0x1b) codes ++ s ++ String.singleton (Char.ofNat 0x1b) ++
          "[0m" := by
  have hperm : (m.filter (hasTag format)).Perm (tagCodes.filter (hasTag format)) := by
    rw [← filter_init_mapping format hnormal]
    exact hm.filter _
  have hnd : (m.filter (hasTag format)).Nodup :=
    List.Nodup.filter _ (hm.nodup_iff.2 (by decide))
  have hnil : m.filter (hasTag format) ≠ [] := by
    intro h
    rw [h] at hperm
    exact tagCodes_filter_ne_nil format hlt hne hnormal hperm.nil_eq.symm
  refine ⟨m.filter (hasTag format), rfl, hperm, ?_, hnd, hnil, ?_⟩
  · intro p
    rw [hperm.mem_iff, List.mem_filter]
    simp only [hasTag, decide_eq_true_eq]
  · rw [format_eq]
    show (if m.filter (hasTag format) = [] then s else _) = _
    rw [if_neg hnil]
    rfl

theorem format_styled_witness :
    ∃ codes : List (Nat × String),
      codes = textFormatter.init.mapping.reverse.filter (hasTag 0x42) ∧
      codes.Perm (tagCodes.filter (hasTag 0x42)) ∧
      (∀ p : Nat × String, p ∈ codes ↔ p ∈ tagCodes ∧ p.1 &&& 0x42 ≠ 0) ∧
      codes.Nodup ∧ codes ≠ [] ∧
      ({ textFormatter.init with mapping := textFormatter.init.mapping.reverse }).format
          false "x" 0x42 =
        escapeCodes (Char.ofNat 0x1b) codes ++ "x" ++ String.singleton (Char.ofNat 0x1b) ++
          "[0m" :=
  format_styled textFormatter.init.mapping.reverse "x" 0x42 (List.reverse_perm _)
    (by decide) (by decide) (by decide)

/-! ### Determinism -/

/-- C17 (as stated, refuted). The text `format` returns for the style
`bright|yellow` depends on the order in which the mapping is enumerated: the
insertion order gives `ESC[1m ESC[33m x ESC[0m`, the reverse order gives
`ESC[33m ESC[1m x ESC[0m`. -/
theorem format_depends_on_enumeration :
    textFormatter.init.mapping.reverse.Perm textFormatter.init.mapping ∧
    textFormatter.init.format false "x"
        (textFormatter.init.bright ||| textFormatter.init.yellow) =
      escapeCodes (Char.ofNat 0x1b) [(2, "[1m"), (0x40, "[33m")] ++ "x" ++
        String.singleton (Char.ofNat 0x1b) ++ "[0m" ∧
    ({ textFormatter.init with mapping := textFormatter.init.mapping.reverse }).format false "x"
        (textFormatter.init.bright ||| textFormatter.init.yellow) =
      escapeCodes (Char.ofNat 0x1b) [(0x40, "[33m"), (2, "[1m")] ++ "x" ++
        String.singleton (Char.ofNat 0x1b) ++ "[0m" ∧
    ({ textFormatter.init with mapping := textFormatter.init.mapping.reverse }).format false "x"
        (textFormatter.init.bright ||| textFormatter.init.yellow) ≠
      textFormatter.init.format false "x"
        (textFormatter.init.bright ||| textFormatter.init.yellow) := by
  refine ⟨List.reverse_perm _, by decide, by decide, by decide⟩

theorem lookup_sizeOf {key : String} {v : Value} : ∀ {dict : List (String × Value)},
    dict.lookup key = some v → sizeOf v < sizeOf dict := by
  intro dict h
  have hm := List.sizeOf_lt_of_mem (mem_of_lookup h)
  simp at hm
  omega

theorem format_nocolor (t : textFormatter) (s : String) (format : Nat) :
    t.format true s format = s := by
  simp [textFormatter.format]

theorem print_nocolor_indep (t₁ t₂ : textFormatter) : ∀ n : Nat,
    (∀ (dict : List (String × Value)) (indent : Nat), sizeOf dict ≤ n →
      printDict true t₁ dict indent = printDict true t₂ dict indent) ∧
    (∀ (list : List Value) (indent : Nat), sizeOf list ≤ n →
      printList true t₁ list indent = printList true t₂ list indent) := by
  intro n
  induction n with
  | zero =>
    constructor
    · intro dict indent h
      cases dict <;> simp at h
    · intro list indent h
      cases list <;> simp at h
  | succ n ih =>
    constructor
    · intro dict indent h
      rw [printDict_eq, printDict_eq]
      apply List.flatMap_congr
      intro key _
      have hk : keyLine true t₁ key indent = keyLine true t₂ key indent := by
        simp only [keyLine, format_nocolor]
      rw [hk]
      congr 1
      cases hl : dict.lookup key with
      | none => rfl
      | some v =>
        have hsz := lookup_sizeOf hl
        cases v with
        | str val => simp only [printDictValue, printString, format_nocolor]
        | int64 val => simp only [printDictValue, printInt, format_nocolor]
        | list val =>
          simp only [printDictValue]
          apply ih.2
          simp at hsz
          omega
        | dict val =>
          simp only [printDictValue]
          apply ih.1
          simp at hsz
          omega
    · intro list indent h
      by_cases h1 : list.length = 1
      · obtain ⟨x, rfl⟩ := List.length_eq_one.1 h1
        rw [printList_single, printList_single]
      · rw [printList_eq _ _ _ _ h1, printList_eq _ _ _ _ h1]
        apply List.flatMap_congr
        intro p hp
        have hk : indexLine true t₁ p.1 indent = indexLine true t₂ p.1 indent := by
          simp only [indexLine, format_nocolor]
        rw [hk]
        congr 1
        have hsz := List.sizeOf_lt_of_mem (List.snd_mem_of_mem_enum hp)
        cases hv : p.2 with
        | str val => simp only [printListValue, printString, format_nocolor]
        | int64 val => simp only [printListValue, printInt, format_nocolor]
        | list val =>
          simp only [printListValue]
          apply ih.2
          rw [hv] at hsz
          simp at hsz
          omega
        | dict val =>
          simp only [printListValue]
          apply ih.1
          rw [hv] at hsz
          simp at hsz
          omega

/-- C17 (amended). For any two enumeration orders of the mapping: with styling
disabled `format` and the whole rendering of `printDict` are the same; with
styling enabled the escape sequences that `format` emits are the same up to their
order, around the same text and reset; and for a format with at most one tag
present (every single tag is one) the result of `format` is the same. -/
theorem format_order_up_to_perm (m₁ m₂ : List (Nat × String)) (s : String) (format : Nat)
    (dict : List (String × Value)) (indent : Nat)
    (h₁ : m₁.Perm textFormatter.init.mapping) (h₂ : m₂.Perm textFormatter.init.mapping) :
    ({ textFormatter.init with mapping := m₁ }).format true s format =
      ({ textFormatter.init with mapping := m₂ }).format true s format ∧
    printDict true { textFormatter.init with mapping := m₁ } dict indent =
      printDict true { textFormatter.init with mapping := m₂ } dict indent ∧
    (m₁.filter (hasTag format)).Perm (m₂.filter (hasTag format)) ∧
    ({ textFormatter.init with mapping := m₁ }).format false s format =
      (if m₁.filter (hasTag format) = [] then s
      else escapeCodes (Char.ofNat 0x1b) (m₁.filter (hasTag format)) ++ s ++
        String.singleton (Char.ofNat 0x1b) ++ "[0m") ∧
    ({ textFormatter.init with mapping := m₂ }).format false s format =
      (if m₂.filter (hasTag format) = [] then s
      else escapeCodes (Char.ofNat 0x1b) (m₂.filter (hasTag format)) ++ s ++
        String.singleton (Char.ofNat 0x1b) ++ "[0m") ∧
    ((textFormatter.init.mapping.filter (hasTag format)).length ≤ 1 →
      ({ textFormatter.init with mapping := m₁ }).format false s format =
        ({ textFormatter.init with mapping := m₂ }).format false s format) ∧
    (∀ p ∈ textFormatter.init.mapping,
      (textFormatter.init.mapping.filter (hasTag p.1)).length ≤ 1) := by
  have hperm : (m₁.filter (hasTag format)).Perm (m₂.filter (hasTag format)) :=
    (h₁.trans h₂.symm).filter _
  refine ⟨?_, (print_nocolor_indep _ _ (sizeOf dict)).1 dict indent le_rfl, hperm,
    format_eq _ s format, format_eq _ s format, ?_, by decide⟩
  · rw [format_nocolor, format_nocolor]
  · intro hlen
    have hl1 : (m₁.filter (hasTag format)).length ≤ 1 := by
      rw [(h₁.filter (hasTag format)).length_eq]; exact hlen
    have heq : m₁.filter (hasTag format) = m₂.filter (hasTag format) := by
      cases hc : m₁.filter (hasTag format) with
      | nil =>
        rw [hc] at hperm
        exact hperm.nil_eq
      | cons a rest =>
        rw [hc] at hl1 hperm
        have hr : rest = [] := by
          cases rest with
          | nil => rfl
          | cons b r => simp at hl1
        subst hr
        exact (List.perm_singleton.1 hperm.symm).symm
    rw [format_eq, format_eq]
    show (if m₁.filter (hasTag format) = [] then s else _) =
      (if m₂.filter (hasTag format) = [] then s else _)
    rw [heq]

theorem format_order_up_to_perm_witness :
    ({ textFormatter.init with mapping := textFormatter.init.mapping.reverse }).format false "x"
        textFormatter.init.cyan =
      textFormatter.init.format false "x" textFormatter.init.cyan :=
  (format_order_up_to_perm textFormatter.init.mapping.reverse textFormatter.init.mapping "x"
    textFormatter.init.cyan [] 1 (List.reverse_perm _) (List.Perm.refl _)).2.2.2.2.2.1
    (by decide)

/-! ### The order of the keys -/

/-- C6 (as stated, refuted). Two dictionaries with the same entries do not always
render identically: with styling enabled the key lines are styled `bright|yellow`,
and the rendering of the entries `zeta`, `alpha` under the insertion order of the
mapping differs from the rendering of `alpha`, `zeta` (and of `zeta`, `alpha`
itself) under the reverse order of the mapping. -/
theorem printDict_styled_depends_on_enumeration :
    [("zeta", Value.int64 1), ("alpha", Value.int64 2)].Perm
      [("alpha", Value.int64 2), ("zeta", Value.int64 1)] ∧
    textFormatter.init.mapping.reverse.Perm textFormatter.init.mapping ∧
    printDict false textFormatter.init [("zeta", Value.int64 1), ("alpha", Value.int64 2)] 1 ≠
      printDict false { textFormatter.init with mapping := textFormatter.init.mapping.reverse }
        [("alpha", Value.int64 2), ("zeta", Value.int64 1)] 1 ∧
    printDict false textFormatter.init [("zeta", Value.int64 1), ("alpha", Value.int64 2)] 1 ≠
      printDict false { textFormatter.init with mapping := textFormatter.init.mapping.reverse }
        [("zeta", Value.int64 1), ("alpha", Value.int64 2)] 1 := by
  refine ⟨List.Perm.swap _ _ _, List.reverse_perm _, ?_, ?_⟩
  · rw [printDict_eq, printDict_eq]
    decide
  · rw [printDict_eq, printDict_eq]
    decide

/-- C6 (amended). For a dictionary with distinct keys, `printDict` prints one key
label line per key, in strictly increasing order of the keys, whatever the order
in which the entries are enumerated: its output is the concatenation, over the
sorted keys, of the key line followed by the rendering of the value, and a
dictionary stored under a key is rendered by `printDict` again, one level deeper.
With styling disabled a dictionary with the same entries in another order renders
identically, whatever the order of the mapping (entries enumerated as `zeta`,
`alpha` render `alpha` first). -/
theorem printDict_keys_sorted (noColorFlag : Bool) (t : textFormatter)
    (dict : List (String × Value)) (indent : Nat) (hkeys : (dict.map Prod.fst).Nodup) :
    (sortStrings (dict.map Prod.fst)).Sorted (fun a b => a < b) ∧
    (sortStrings (dict.map Prod.fst)).Perm (dict.map Prod.fst) ∧
    printDict noColorFlag t dict indent =
      (sortStrings (dict.map Prod.fst)).flatMap (fun key =>
        keyLine noColorFlag t key indent ::
          printDictValue noColorFlag t (dict.lookup key) key indent) ∧
    (∀ key val, (key, Value.dict val) ∈ dict →
      printDictValue noColorFlag t (dict.lookup key) key indent =
        printDict noColorFlag t val (indent + 1)) ∧
    (∀ (t' : textFormatter) (dict' : List (String × Value)), dict'.Perm dict →
      printDict true t' dict' indent = printDict true t dict indent) ∧
    printDict true textFormatter.init [("zeta", Value.int64 1), ("alpha", Value.int64 2)] 1 =
      ["    alpha", "        2", "    zeta", "        1"] := by
  refine ⟨sortStrings_strict _ hkeys, sortStrings_perm _, printDict_eq _ _ _ _, ?_, ?_, ?_⟩
  · intro key val hm
    rw [lookup_of_mem hkeys hm]
    rfl
  · intro t' dict' hp
    rw [(print_nocolor_indep t' t (sizeOf dict')).1 dict' indent le_rfl]
    rw [printDict_eq, printDict_eq, sortStrings_congr (hp.map Prod.fst)]
    congr 1
    funext key
    rw [lookup_perm hp hkeys key]
  · rw [printDict]
    decide

theorem printDict_keys_sorted_witness :
    printDict true { textFormatter.init with mapping := textFormatter.init.mapping.reverse }
        [("zeta", Value.int64 1), ("alpha", Value.int64 2)] 1 =
      printDict true textFormatter.init [("alpha", Value.int64 2), ("zeta", Value.int64 1)] 1 ∧
    printDict true textFormatter.init [("alpha", Value.int64 2), ("zeta", Value.int64 1)] 1 =
      ["    alpha", "        2", "    zeta", "        1"] :=
  ⟨(printDict_keys_sorted true textFormatter.init
      [("alpha", Value.int64 2), ("zeta", Value.int64 1)] 1 (by decide)).2.2.2.2.1
      { textFormatter.init with mapping := textFormatter.init.mapping.reverse }
      [("zeta", Value.int64 1), ("alpha", Value.int64 2)] (List.Perm.swap _ _ _),
    by rw [printDict]; decide⟩

/-! ### The summary view -/

theorem formatBytes_isSome (size : Nat) (h : size < 2 ^ 64) (hne : size ≠ 1024) :
    ∃ s : String, formatBytes size = some s := by
  by_cases hs : size < 1024
  · exact ⟨toString size ++ " B", by simp only [formatBytes, if_pos hs]⟩
  · obtain ⟨j, hj1, hj6, hloop, _⟩ := formatBytes_loop_uint64 size (by omega) h
    obtain ⟨u, hu, _⟩ := suffixArray_first_six j hj1 hj6
    exact ⟨_, (formatBytes_of_loop size hs _ j u hj1 hu hloop).2⟩

theorem formatBytes_texts (files : List File)
    (h : ∀ f ∈ files, f.Length < 2 ^ 64 ∧ f.Length ≠ 1024) :
    ∃ texts : List String, files.map (fun f => formatBytes f.Length) = texts.map some := by
  induction files with
  | nil => exact ⟨[], rfl⟩
  | cons f fs ih =>
    obtain ⟨texts, ht⟩ := ih (fun g hg => h g (List.mem_cons_of_mem _ hg))
    obtain ⟨s, hs⟩ := formatBytes_isSome f.Length (h f (List.mem_cons_self _ _)).1
      (h f (List.mem_cons_self _ _)).2
    exact ⟨s :: texts, by simp only [List.map_cons, hs, ht]⟩

theorem filesLoop_eq (noColorFlag : Bool) (t : textFormatter) :
    ∀ (files : List File) (k : Nat) (texts : List String),
      files.map (fun f => formatBytes f.Length) = texts.map some →
      filesLoop noColorFlag t (files.enumFrom k) =
        some (((files.enumFrom k).zip texts).flatMap (fun q =>
          [stringsRepeat (stringsRepeat " " 4) 2 ++
              t.format noColorFlag (toString q.1.1) (t.bright ||| t.yellow),
            stringsRepeat (stringsRepeat " " 4) 3 ++
              t.format noColorFlag "path" (t.bright ||| t.yellow),
            stringsRepeat (stringsRepeat " " 4) 4 ++ q.1.2.Path,
            stringsRepeat (stringsRepeat " " 4) 3 ++
              t.format noColorFlag "length" (t.bright ||| t.yellow),
            stringsRepeat (stringsRepeat " " 4) 4 ++ t.format noColorFlag q.2 t.cyan])) := by
  intro files
  induction files with
  | nil => intro k texts _; rfl
  | cons f fs ih =>
    intro k texts h
    cases texts with
    | nil => simp at h
    | cons tx txs =>
      simp only [List.map_cons, List.cons.injEq] at h
      obtain ⟨h1, h2⟩ := h
      simp only [List.enumFrom_cons, filesLoop, h1, ih (k + 1) txs h2, List.zip_cons_cons,
        List.flatMap_cons]

theorem zip_enum_texts (files : List File) (texts : List String)
    (h : texts.length = files.length) :
    (files.enum.zip texts).map (fun q => q.1.2) = files ∧
    (files.enum.zip texts).map (fun q => q.1.1) = List.range files.length ∧
    (files.enum.zip texts).length = files.length := by
  have hle : files.enum.length ≤ texts.length := by simp [h]
  have hfst : (files.enum.zip texts).map Prod.fst = files.enum := List.map_fst_zip _ _ hle
  refine ⟨?_, ?_, by simp [h]⟩
  · have : (files.enum.zip texts).map (fun q => q.1.2) =
        ((files.enum.zip texts).map Prod.fst).map Prod.snd := by
      rw [List.map_map]; rfl
    rw [this, hfst, List.enum_map_snd]
  · have : (files.enum.zip texts).map (fun q => q.1.1) =
        ((files.enum.zip texts).map Prod.fst).map Prod.fst := by
      rw [List.map_map]; rfl
    rw [this, hfst, List.enum_map_fst]

theorem flatMap_length_five {α : Type} (l : List α) (f : α → List String)
    (h : ∀ a, (f a).length = 5) : (l.flatMap f).length = 5 * l.length := by
  induction l with
  | nil => rfl
  | cons a rest ih =>
    rw [List.flatMap_cons, List.length_append, h a, ih, List.length_cons]
    omega

/-- For file lengths that are `uint64` values other than `1024` (the lengths on
which `formatBytes` returns), the file listing is the `files` label line followed,
for every file `i = 0, ..., n-1` in the order of `tfile.Files`, by exactly five
lines: the index `i`, the label `path`, the path itself, the label `length` and
the text of `formatBytes` for the length of the file; it has `1 + 5 * n` lines. -/
theorem fileListing_shape (noColorFlag : Bool) (t : textFormatter) (tfile : TorrentFile)
    (h : ∀ f ∈ tfile.Files, f.Length < 2 ^ 64 ∧ f.Length ≠ 1024) :
    ∃ (texts listing : List String),
      tfile.Files.map (fun f => formatBytes f.Length) = texts.map some ∧
      (tfile.Files.enum.zip texts).map (fun q => q.1.2) = tfile.Files ∧
      (tfile.Files.enum.zip texts).map (fun q => q.1.1) = List.range tfile.Files.length ∧
      fileListing noColorFlag t tfile = some listing ∧
      listing =
        ("    " ++ t.format noColorFlag "files" (t.bright ||| t.yellow)) ::
          (tfile.Files.enum.zip texts).flatMap (fun q =>
            ["        " ++ t.format noColorFlag (toString q.1.1) (t.bright ||| t.yellow),
              "            " ++ t.format noColorFlag "path" (t.bright ||| t.yellow),
              "                " ++ q.1.2.Path,
              "            " ++ t.format noColorFlag "length" (t.bright ||| t.yellow),
              "                " ++ t.format noColorFlag q.2 t.cyan]) ∧
      listing.length = 1 + 5 * tfile.Files.length := by
  obtain ⟨texts, ht⟩ := formatBytes_texts tfile.Files h
  have hlen : texts.length = tfile.Files.length := by
    have := congrArg List.length ht
    simpa using this.symm
  obtain ⟨z1, z2, z3⟩ := zip_enum_texts tfile.Files texts hlen
  refine ⟨texts, _, ht, z1, z2, ?_, rfl, ?_⟩
  · simp only [fileListing, List.enum, filesLoop_eq noColorFlag t tfile.Files 0 texts ht]
    rfl
  · rw [List.length_cons, flatMap_length_five, z3]
    · omega
    · intro _; rfl

theorem pieces_flatten_length (pieces : List (List Nat))
    (h : ∀ p ∈ pieces, p.length = PIECE_SIZE) :
    pieces.flatten.length = pieces.length * PIECE_SIZE := by
  induction pieces with
  | nil => rfl
  | cons p ps ih =>
    rw [List.flatten_cons, List.length_append, h p (List.mem_cons_self _ _),
      ih (fun q hq => h q (List.mem_cons_of_mem _ hq)), List.length_cons]
    ring

/-- For file lengths and a piece length that are `uint64` values other than `1024`
(the sizes on which `formatBytes` returns), in Detailed mode the output is the
header line, the file listing and then the four piece lines, followed only by the
closing blank line: the label `piece length`, the text of `formatBytes` for the
piece length, the label `pieces` and `[N UTF-8 Bytes]`, `N` being the byte length
of the pieces blob (the hash records of `PIECE_SIZE` bytes each, concatenated).
For the files `a.txt` of 500 bytes and `b.bin` of 2048 bytes, piece length 16384
and a blob of 40 bytes the lengths read `500 B` and `2.00 KB`, the piece length
`16.00 KB` and the summary `[40 UTF-8 Bytes]`. -/
theorem main_detailed (noColorFlag : Bool) (t : textFormatter) (fileName : String)
    (tfile : TorrentFile) (dict : List (String × Value)) (n : Nat)
    (hfiles : ∀ f ∈ tfile.Files, f.Length < 2 ^ 64 ∧ f.Length ≠ 1024)
    (hpl : tfile.PieceLength < 2 ^ 64 ∧ tfile.PieceLength ≠ 1024)
    (hrec : ∀ p ∈ tfile.Pieces, p.length = PIECE_SIZE) :
    (∃ (listing : List String) (pieceLength : String),
      fileListing noColorFlag t tfile = some listing ∧
      formatBytes tfile.PieceLength = some pieceLength ∧
      main noColorFlag t ⟨false, false, false, true, false, n + 1⟩ fileName tfile dict =
        some ⟨false, t.format noColorFlag fileName t.bright :: (listing ++
          [t.format noColorFlag "    piece length" (t.bright ||| t.yellow),
            "            " ++ t.format noColorFlag pieceLength t.cyan,
            t.format noColorFlag "    pieces" (t.bright ||| t.yellow),
            t.format noColorFlag
              ("            [" ++ toString tfile.Pieces.flatten.length ++ " UTF-8 Bytes]")
              (t.red ||| t.bright)] ++ [""])⟩) ∧
    main true textFormatter.init ⟨false, false, false, true, false, 1⟩ "x.torrent"
        { Name := "n", Comment := "", AnnounceUrl := "u", CreatedBy := "", CreationDate := "d",
          Encoding := "", Files := [⟨"a.txt", 500⟩, ⟨"b.bin", 2048⟩], PieceLength := 16384,
          Pieces := [List.replicate 20 0, List.replicate 20 1], TotalSize := 2548,
          InfoHash := [] } [] =
      some ⟨false, ["x.torrent", "    files",
        "        0", "            path", "                a.txt", "            length",
        "                500 B",
        "        1", "            path", "                b.bin", "            length",
        "                2.00 KB",
        "    piece length", "            16.00 KB", "    pieces", "            [40 UTF-8 Bytes]",
        ""]⟩ := by
  refine ⟨?_, by decide⟩
  obtain ⟨_, listing, _, _, _, hl, _, _⟩ := fileListing_shape noColorFlag t tfile hfiles
  obtain ⟨pieceLength, hp⟩ := formatBytes_isSome tfile.PieceLength hpl.1 hpl.2
  refine ⟨listing, pieceLength, hl, hp, ?_⟩
  simp only [main, pieceDetails, hl, hp, pieces_flatten_length tfile.Pieces hrec]
  simp

/-- For a total size that is a `uint64` value other than `1024` (a size on which
`formatBytes` returns), in Compact mode with styling disabled the output is the
header line and then the field lines in the order name, comment, announce url,
created by, created on, encoding (label `enconding`), num files, total size, Info
Hash, followed by the closing blank line; the encoding line is there exactly when
the encoding is not empty; every field line is four spaces, the label,
`19 - 4 - len(label) ≥ 1` spaces and the value, so the value starts at column 19. -/
theorem main_compact (t : textFormatter) (fileName : String) (tfile : TorrentFile)
    (dict : List (String × Value)) (n : Nat)
    (hsz : tfile.TotalSize < 2 ^ 64 ∧ tfile.TotalSize ≠ 1024) :
    (∃ total : String, formatBytes tfile.TotalSize = some total ∧
      main true t ⟨false, false, false, false, false, n + 1⟩ fileName tfile dict =
        some ⟨false, fileName ::
          ([fieldLine "name" tfile.Name,
            fieldLine "comment" tfile.Comment,
            fieldLine "announce url" tfile.AnnounceUrl,
            fieldLine "created by" tfile.CreatedBy,
            fieldLine "created on" tfile.CreationDate] ++
          (if tfile.Encoding ≠ "" then [fieldLine "enconding" tfile.Encoding] else []) ++
          [fieldLine "num files" (toString tfile.Files.length),
            fieldLine "total size" total,
            fieldLine "Info Hash" (fmtHex tfile.InfoHash)] ++ [""])⟩) ∧
    (∀ label ∈ ["name", "comment", "announce url", "created by", "created on", "enconding",
        "num files", "total size", "Info Hash"],
      1 ≤ 19 - 4 - label.length ∧
      ("    " ++ label ++ stringsRepeat " " (19 - 4 - label.length)).length = 19) ∧
    (∀ label value : String,
      fieldLine label value =
        "    " ++ label ++ stringsRepeat " " (19 - 4 - label.length) ++ value) := by
  refine ⟨?_, by decide, fun _ _ => rfl⟩
  obtain ⟨total, ht⟩ := formatBytes_isSome tfile.TotalSize hsz.1 hsz.2
  refine ⟨total, ht, ?_⟩
  simp only [main, summaryFields, ht, format_nocolor]
  by_cases he : tfile.Encoding = ""
  · simp [he]
    refine ⟨rfl, rfl, rfl, rfl, rfl, rfl, rfl, rfl⟩
  · simp [he]
    refine ⟨rfl, rfl, rfl, rfl, rfl, rfl, rfl, rfl, rfl⟩

/-- C13. In Detailed mode the piece lines are not always reached: with piece
length `1024` the run panics in `formatBytes` after the label `piece length`, and
with a file of `1024` bytes it panics inside the file listing, before the piece
lines; in both cases the output does not end with the piece length and the pieces
summary. -/
theorem main_detailed_panics_at_1024 :
    pieceDetails true textFormatter.init
        { Name := "n", Comment := "", AnnounceUrl := "u", CreatedBy := "", CreationDate := "d",
          Encoding := "", Files := [⟨"a.txt", 500⟩, ⟨"b.bin", 2048⟩], PieceLength := 1024,
          Pieces := [List.replicate 20 0, List.replicate 20 1], TotalSize := 2548,
          InfoHash := [] } = none ∧
    main true textFormatter.init ⟨false, false, false, true, false, 1⟩ "x.torrent"
        { Name := "n", Comment := "", AnnounceUrl := "u", CreatedBy := "", CreationDate := "d",
          Encoding := "", Files := [⟨"a.txt", 500⟩, ⟨"b.bin", 2048⟩], PieceLength := 1024,
          Pieces := [List.replicate 20 0, List.replicate 20 1], TotalSize := 2548,
          InfoHash := [] } [] = none ∧
    main true textFormatter.init ⟨false, false, false, true, false, 1⟩ "x.torrent"
        { Name := "n", Comment := "", AnnounceUrl := "u", CreatedBy := "", CreationDate := "d",
          Encoding := "", Files := [⟨"a.txt", 500⟩, ⟨"b.bin", 1024⟩], PieceLength := 16384,
          Pieces := [List.replicate 20 0, List.replicate 20 1], TotalSize := 1524,
          InfoHash := [] } [] = none := by
  refine ⟨by decide, by decide, by decide⟩

/-- C14. The file listing does not have its `1 + 5 * n` lines for every record:
for the files `a.txt` of 500 bytes and `b.bin` of 1024 bytes `formatBytes` panics
on the length of the second file, so neither the listing nor the run with the
files flag or with the detailed flag completes. -/
theorem fileListing_panics_at_1024 :
    formatBytes 1024 = none ∧
    fileListing true textFormatter.init
        { Name := "n", Comment := "", AnnounceUrl := "u", CreatedBy := "", CreationDate := "d",
          Encoding := "", Files := [⟨"a.txt", 500⟩, ⟨"b.bin", 1024⟩], PieceLength := 16384,
          Pieces := [], TotalSize := 1524, InfoHash := [] } = none ∧
    main true textFormatter.init ⟨false, false, true, false, false, 1⟩ "x.torrent"
        { Name := "n", Comment := "", AnnounceUrl := "u", CreatedBy := "", CreationDate := "d",
          Encoding := "", Files := [⟨"a.txt", 500⟩, ⟨"b.bin", 1024⟩], PieceLength := 16384,
          Pieces := [], TotalSize := 1524, InfoHash := [] } [] = none ∧
    main true textFormatter.init ⟨false, false, false, true, false, 1⟩ "x.torrent"
        { Name := "n", Comment := "", AnnounceUrl := "u", CreatedBy := "", CreationDate := "d",
          Encoding := "", Files := [⟨"a.txt", 500⟩, ⟨"b.bin", 1024⟩], PieceLength := 16384,
          Pieces := [], TotalSize := 1524, InfoHash := [] } [] = none := by
  refine ⟨by decide, by decide, by decide, by decide⟩

/-- C15. In Compact mode the field lines other than the encoding line are not
always present: for a record of total size `1024` (one file of 1024 bytes)
`formatBytes` panics when the total size line is printed, so the lines
`total size` and `Info Hash` are never printed and the run does not complete. -/
theorem main_compact_panics_at_1024 :
    summaryFields true textFormatter.init
        { Name := "n", Comment := "", AnnounceUrl := "u", CreatedBy := "", CreationDate := "d",
          Encoding := "", Files := [⟨"a.txt", 1024⟩], PieceLength := 16384, Pieces := [],
          TotalSize := 1024, InfoHash := [0xab, 0x01] } = none ∧
    main true textFormatter.init ⟨false, false, false, false, false, 1⟩ "x.torrent"
        { Name := "n", Comment := "", AnnounceUrl := "u", CreatedBy := "", CreationDate := "d",
          Encoding := "", Files := [⟨"a.txt", 1024⟩], PieceLength := 16384, Pieces := [],
          TotalSize := 1024, InfoHash := [0xab, 0x01] } [] = none := by
  refine ⟨by decide, by decide⟩

/-- C12 (as stated, refuted). With only the files flag set the compact field lines
are printed: the run prints the header, the lines name, comment, announce url,
created by, created on, num files, total size and Info Hash, and then the file
listing. -/
theorem main_files_only_prints_fields :
    main true textFormatter.init ⟨false, false, true, false, false, 1⟩ "a.torrent"
        { Name := "n", Comment := "", AnnounceUrl := "u", CreatedBy := "", CreationDate := "d",
          Encoding := "", Files := [⟨"a.txt", 500⟩], PieceLength := 16384, Pieces := [],
          TotalSize := 500, InfoHash := [0xab, 0x01] } [] =
      some ⟨false, ["a.torrent",
        "    name           n", "    comment        ", "    announce url   u",
        "    created by     ", "    created on     d", "    num files      1",
        "    total size     500 B", "    Info Hash      ab01",
        "    files", "        0", "            path", "                a.txt",
        "            length", "                500 B", ""]⟩ := by
  decide

/-- C12 (amended). With only the files flag set the run prints the header line,
then the compact field lines (name, comment, announce url, created by, created on,
the encoding line when the encoding is not empty, num files, total size, Info
Hash) and then the file listing; with the detailed flag set instead the compact
field lines are left out and the header is followed at once by the file listing
and the piece lines. This is stated for records whose total size, file lengths and
piece length are `uint64` values other than `1024`, the sizes on which
`formatBytes` returns. -/
theorem main_files_only (noColorFlag : Bool) (t : textFormatter) (fileName : String)
    (tfile : TorrentFile) (dict : List (String × Value)) (n : Nat)
    (hsz : tfile.TotalSize < 2 ^ 64 ∧ tfile.TotalSize ≠ 1024)
    (hfiles : ∀ f ∈ tfile.Files, f.Length < 2 ^ 64 ∧ f.Length ≠ 1024)
    (hpl : tfile.PieceLength < 2 ^ 64 ∧ tfile.PieceLength ≠ 1024) :
    ∃ (total pieceLength : String) (texts : List String),
      formatBytes tfile.TotalSize = some total ∧
      formatBytes tfile.PieceLength = some pieceLength ∧
      tfile.Files.map (fun f => formatBytes f.Length) = texts.map some ∧
      main noColorFlag t ⟨false, false, true, false, false, n + 1⟩ fileName tfile dict =
        some ⟨false, t.format noColorFlag fileName t.bright ::
          ([ "    " ++ t.format noColorFlag "name" (t.bright ||| t.yellow) ++
                "           " ++ tfile.Name,
              "    " ++ t.format noColorFlag "comment" (t.bright ||| t.yellow) ++
                "        " ++ tfile.Comment,
              "    " ++ t.format noColorFlag "announce url" (t.bright ||| t.yellow) ++
                "   " ++ tfile.AnnounceUrl,
              "    " ++ t.format noColorFlag "created by" (t.bright ||| t.yellow) ++
                "     " ++ tfile.CreatedBy,
              "    " ++ t.format noColorFlag "created on" (t.bright ||| t.yellow) ++
                "     " ++ t.format noColorFlag tfile.CreationDate t.magenta] ++
            (if tfile.Encoding ≠ "" then
              ["    " ++ t.format noColorFlag "enconding" (t.bright ||| t.yellow) ++
                "      " ++ tfile.Encoding]
            else []) ++
            [ "    " ++ t.format noColorFlag "num files" (t.bright ||| t.yellow) ++
                "      " ++ toString tfile.Files.length,
              "    " ++ t.format noColorFlag "total size" (t.bright ||| t.yellow) ++
                "     " ++ t.format noColorFlag total t.cyan,
              "    " ++ t.format noColorFlag "Info Hash" (t.bright ||| t.yellow) ++
                "      " ++ fmtHex tfile.InfoHash] ++
            (("    " ++ t.format noColorFlag "files" (t.bright ||| t.yellow)) ::
              (tfile.Files.enum.zip texts).flatMap (fun q =>
                ["        " ++ t.format noColorFlag (toString q.1.1) (t.bright ||| t.yellow),
                  "            " ++ t.format noColorFlag "path" (t.bright ||| t.yellow),
                  "                " ++ q.1.2.Path,
                  "            " ++ t.format noColorFlag "length" (t.bright ||| t.yellow),
                  "                " ++ t.format noColorFlag q.2 t.cyan])) ++
            [""])⟩ ∧
      main noColorFlag t ⟨false, false, false, true, false, n + 1⟩ fileName tfile dict =
        some ⟨false, t.format noColorFlag fileName t.bright ::
          ((("    " ++ t.format noColorFlag "files" (t.bright ||| t.yellow)) ::
              (tfile.Files.enum.zip texts).flatMap (fun q =>
                ["        " ++ t.format noColorFlag (toString q.1.1) (t.bright ||| t.yellow),
                  "            " ++ t.format noColorFlag "path" (t.bright ||| t.yellow),
                  "                " ++ q.1.2.Path,
                  "            " ++ t.format noColorFlag "length" (t.bright ||| t.yellow),
                  "                " ++ t.format noColorFlag q.2 t.cyan])) ++
            [t.format noColorFlag "    piece length" (t.bright ||| t.yellow),
              "            " ++ t.format noColorFlag pieceLength t.cyan,
              t.format noColorFlag "    pieces" (t.bright ||| t.yellow),
              t.format noColorFlag
                ("            [" ++ toString (tfile.Pieces.length * PIECE_SIZE) ++
                  " UTF-8 Bytes]")
                (t.red ||| t.bright)] ++
            [""])⟩ := by
  obtain ⟨total, ht⟩ := formatBytes_isSome tfile.TotalSize hsz.1 hsz.2
  obtain ⟨pieceLength, hp⟩ := formatBytes_isSome tfile.PieceLength hpl.1 hpl.2
  obtain ⟨texts, listing, htx, _, _, hl, hle, _⟩ :=
    fileListing_shape noColorFlag t tfile hfiles
  subst hle
  refine ⟨total, pieceLength, texts, ht, hp, htx, ?_, ?_⟩
  · simp only [main, summaryFields, ht, hl]
    by_cases he : tfile.Encoding = ""
    · simp [he]
      refine ⟨rfl, rfl, rfl, rfl, rfl, rfl, rfl, rfl⟩
    · simp [he]
      refine ⟨rfl, rfl, rfl, rfl, rfl, rfl, rfl, rfl, rfl⟩
  · simp only [main, pieceDetails, hl, hp]
    simp

theorem main_files_only_witness :
    main true textFormatter.init ⟨false, false, true, false, false, 0 + 1⟩ "x.torrent"
        { Name := "n", Comment := "", AnnounceUrl := "u", CreatedBy := "", CreationDate := "d",
          Encoding := "UTF-8", Files := [⟨"a.txt", 500⟩, ⟨"b.bin", 2048⟩],
          PieceLength := 16384, Pieces := [], TotalSize := 2548, InfoHash := [0xab, 0x01] } [] =
      some ⟨false, ["x.torrent",
        "    name           n", "    comment        ", "    announce url   u",
        "    created by     ", "    created on     d", "    enconding      UTF-8",
        "    num files      2", "    total size     2.49 KB", "    Info Hash      ab01",
        "    files",
        "        0", "            path", "                a.txt", "            length",
        "                500 B",
        "        1", "            path", "                b.bin", "            length",
        "                2.00 KB", ""]⟩ := by
  obtain ⟨total, pieceLength, texts, h1, _, h3, h4, _⟩ :=
    main_files_only true textFormatter.init "x.torrent"
      { Name := "n", Comment := "", AnnounceUrl := "u", CreatedBy := "", CreationDate := "d",
        Encoding := "UTF-8", Files := [⟨"a.txt", 500⟩, ⟨"b.bin", 2048⟩],
        PieceLength := 16384, Pieces := [], TotalSize := 2548, InfoHash := [0xab, 0x01] } [] 0
      (by decide) (by decide) (by decide)
  have e1 : total = "2.49 KB" := by
    have : formatBytes 2548 = some "2.49 KB" := by decide
    exact Option.some.inj (h1.symm.trans this)
  have e3 : texts = ["500 B", "2.00 KB"] := by
    have : [File.mk "a.txt" 500, File.mk "b.bin" 2048].map (fun f => formatBytes f.Length) =
        ["500 B", "2.00 KB"].map some := by decide
    exact (List.map_injective_iff.2 (Option.some_injective _) (h3.symm.trans this))
  subst e1 e3
  rw [h4]
  decide

/-- C16. The flags `-d` and `-e` together are not rejected: the run calls no usage
message and prints the raw dump of `printDict`, as if `-d` were not set. The
pairs `-f -d` and `-f -e` are rejected with the usage message and an error line,
and print neither view. -/
theorem main_detailed_everything_not_rejected (noColorFlag : Bool) (t : textFormatter)
    (fileName : String) (tfile : TorrentFile) (dict : List (String × Value)) :
    main noColorFlag t ⟨false, false, false, true, true, 1⟩ fileName tfile dict =
      some ⟨false, printDict noColorFlag t dict 1 ++ [""]⟩ ∧
    main noColorFlag t ⟨false, false, true, true, false, 1⟩ fileName tfile dict =
      some ⟨true,
        ["gotorrentinfo: error: argument -f/--files: not allowed with argument -d/--detailed"]⟩ ∧
    main noColorFlag t ⟨false, false, true, false, true, 1⟩ fileName tfile dict =
      some ⟨true,
        ["gotorrentinfo: error: argument -f/--files: not allowed with argument -e/--everything"]⟩ ∧
    main true textFormatter.init ⟨false, false, false, true, true, 1⟩ "x.torrent"
        { Name := "n", Comment := "", AnnounceUrl := "u", CreatedBy := "", CreationDate := "d",
          Encoding := "", Files := [], PieceLength := 16384, Pieces := [], TotalSize := 0,
          InfoHash := [] } [("name", Value.str "n")] =
      some ⟨false, ["    name", "        n", ""]⟩ := by
  refine ⟨?_, ?_, ?_, ?_⟩
  · simp [main]
  · simp [main]
  · simp [main]
  · simp only [main]
    rw [printDict]
    decide

/-! ### Indentation -/

theorem stringsRepeat_spaces (n : Nat) :
    stringsRepeat " " n = String.mk (List.replicate n ' ') := by
  induction n with
  | zero => rfl
  | succ k ih =>
    rw [stringsRepeat, ih, List.replicate_succ]
    rfl

/-- C18. Indentation is four spaces per level. In `printDict` at depth `d` every
key line is a run of exactly `4 * d` space characters followed by the styled key;
a byte string or an integer stored directly under a key is printed after
`4 * (d + 1)` spaces; the keys of a dictionary stored under a key are printed
after `4 * (d + 1)` spaces; and for a list of two or more elements stored under a
key the index lines are printed after `4 * (d + 1)` spaces and its byte string and
integer elements after `4 * (d + 2)` spaces. -/
theorem indentation_four_per_level (noColorFlag : Bool) (t : textFormatter)
    (dict : List (String × Value)) (d : Nat) (hkeys : (dict.map Prod.fst).Nodup) :
    printDict noColorFlag t dict d =
      (sortStrings (dict.map Prod.fst)).flatMap (fun key =>
        (String.mk (List.replicate (4 * d) ' ') ++
            t.format noColorFlag key (if d < 2 then t.bright ||| t.yellow else t.green)) ::
          printDictValue noColorFlag t (dict.lookup key) key d) ∧
    (∀ key s, (key, Value.str s) ∈ dict →
      printDictValue noColorFlag t (dict.lookup key) key d =
        [String.mk (List.replicate (4 * (d + 1)) ' ') ++
          (if key = "pieces" then
            t.format noColorFlag ("[" ++ toString s.utf8ByteSize ++ " UTF-8 Bytes]")
              (t.red ||| t.bright)
          else s)]) ∧
    (∀ key v, (key, Value.int64 v) ∈ dict →
      printDictValue noColorFlag t (dict.lookup key) key d =
        [String.mk (List.replicate (4 * (d + 1)) ' ') ++
          t.format noColorFlag (toString v) t.cyan]) ∧
    (∀ key val, (key, Value.dict val) ∈ dict →
      printDictValue noColorFlag t (dict.lookup key) key d =
        (sortStrings (val.map Prod.fst)).flatMap (fun k =>
          (String.mk (List.replicate (4 * (d + 1)) ' ') ++
              t.format noColorFlag k (if d + 1 < 2 then t.bright ||| t.yellow else t.green)) ::
            printDictValue noColorFlag t (val.lookup k) k (d + 1))) ∧
    (∀ key val, (key, Value.list val) ∈ dict → 2 ≤ val.length →
      printDictValue noColorFlag t (dict.lookup key) key d =
        val.enum.flatMap (fun p =>
          (String.mk (List.replicate (4 * (d + 1)) ' ') ++
              t.format noColorFlag (toString p.1) (t.bright ||| t.yellow)) ::
            printListValue noColorFlag t p.2 (d + 1))) ∧
    (∀ s : String, printListValue noColorFlag t (Value.str s) (d + 1) =
      [String.mk (List.replicate (4 * (d + 2)) ' ') ++ s]) ∧
    (∀ v : Int, printListValue noColorFlag t (Value.int64 v) (d + 1) =
      [String.mk (List.replicate (4 * (d + 2)) ' ') ++
        t.format noColorFlag (toString v) t.cyan]) := by
  have e0 : d * 4 = 4 * d := Nat.mul_comm _ _
  have e1 : (d + 1) * 4 = 4 * (d + 1) := Nat.mul_comm _ _
  have e2 : (d + 1 + 1) * 4 = 4 * (d + 2) := Nat.mul_comm _ _
  refine ⟨?_, ?_, ?_, ?_, ?_, ?_, ?_⟩
  · rw [printDict_eq]
    simp only [keyLine, e0, stringsRepeat_spaces]
  · intro key s hm
    rw [lookup_of_mem hkeys hm]
    simp only [printDictValue, printString, e1, stringsRepeat_spaces]
    split <;> rfl
  · intro key v hm
    rw [lookup_of_mem hkeys hm]
    simp only [printDictValue, printInt, e1, stringsRepeat_spaces]
  · intro key val hm
    rw [lookup_of_mem hkeys hm]
    show printDict noColorFlag t val (d + 1) = _
    rw [printDict_eq]
    simp only [keyLine, e1, stringsRepeat_spaces]
  · intro key val hm hlen
    rw [lookup_of_mem hkeys hm]
    show printList noColorFlag t val (d + 1) = _
    rw [printList_eq _ _ _ _ (by omega)]
    simp only [indexLine, e1, stringsRepeat_spaces]
  · intro s
    simp only [printListValue, printString, e2, stringsRepeat_spaces]
    rfl
  · intro v
    simp only [printListValue, printInt, e2, stringsRepeat_spaces]

theorem indentation_four_per_level_witness :
    printDictValue true textFormatter.init
        (List.lookup "a"
          [("a", Value.int64 5), ("b", Value.list [Value.str "x", Value.int64 7]),
            ("c", Value.dict [("k", Value.str "v")])])
        "a" 1 =
      [String.mk (List.replicate (4 * (1 + 1)) ' ') ++
        textFormatter.init.format true (toString (5 : Int)) textFormatter.init.cyan] ∧
    String.mk (List.replicate (4 * (1 + 1)) ' ') ++
        textFormatter.init.format true (toString (5 : Int)) textFormatter.init.cyan =
      "        5" ∧
    printDict true textFormatter.init
        [("a", Value.int64 5), ("b", Value.list [Value.str "x", Value.int64 7]),
          ("c", Value.dict [("k", Value.str "v")])] 1 =
      ["    a", "        5",
        "    b", "        0", "            x", "        1", "            7",
        "    c", "        k", "            v"] := by
  have hlist : printList true textFormatter.init [Value.str "x", Value.int64 7] (1 + 1) =
      ["        0", "            x", "        1", "            7"] := by
    rw [printList]; decide
  have hdict : printDict true textFormatter.init [("k", Value.str "v")] (1 + 1) =
      ["        k", "            v"] := by
    rw [printDict]; decide
  have hs : sortStrings (List.map Prod.fst
      [("a", Value.int64 5), ("b", Value.list [Value.str "x", Value.int64 7]),
        ("c", Value.dict [("k", Value.str "v")])]) = ["a", "b", "c"] := by decide
  refine ⟨(indentation_four_per_level true textFormatter.init
      [("a", Value.int64 5), ("b", Value.list [Value.str "x", Value.int64 7]),
        ("c", Value.dict [("k", Value.str "v")])] 1 (by decide)).2.2.1 "a" 5 (by simp),
    by decide, ?_⟩
  rw [(indentation_four_per_level true textFormatter.init
      [("a", Value.int64 5), ("b", Value.list [Value.str "x", Value.int64 7]),
        ("c", Value.dict [("k", Value.str "v")])] 1 (by decide)).1, hs]
  simp only [List.flatMap_cons, List.flatMap_nil, List.append_nil, List.cons_append]
  have la : List.lookup "a"
      [("a", Value.int64 5), ("b", Value.list [Value.str "x", Value.int64 7]),
        ("c", Value.dict [("k", Value.str "v")])] = some (Value.int64 5) := rfl
  have lb : List.lookup "b"
      [("a", Value.int64 5), ("b", Value.list [Value.str "x", Value.int64 7]),
        ("c", Value.dict [("k", Value.str "v")])] =
      some (Value.list [Value.str "x", Value.int64 7]) := rfl
  have lc : List.lookup "c"
      [("a", Value.int64 5), ("b", Value.list [Value.str "x", Value.int64 7]),
        ("c", Value.dict [("k", Value.str "v")])] =
      some (Value.dict [("k", Value.str "v")]) := rfl
  rw [la, lb, lc]
  simp only [printDictValue, hlist, hdict]
  decide

end Gotorrentinfo
